import Mathlib

/-!
Verification development for the `next-typed-codegen-route` route-pattern
compiler.  Strings are modelled as `List Char`; the JavaScript regular
expressions used by the source are modelled by explicit scanners with the
same leftmost-match semantics.
-/

namespace RouteCodegen

abbrev Str := List Char

/-! ## The placeholder scan

All of `buildPath`, `extractParamKeys` and `isDynamicRoute` use the regex
`/\[([^\]]+)\]/g` on the raw route string: the leftmost matches are the
substrings `[` ++ content ++ `]` where content is the non-empty run of
non-`]` characters up to the first `]` after the `[`.  `splitFirstRB`
splits a string at its first `]`; `tokenize` performs the global scan,
yielding literal characters and placeholder tokens. -/

/-- A piece of a route string as the placeholder regex sees it: a literal
character, or a bracketed placeholder with the given (non-empty) name. -/
inductive Tok where
  | lit (c : Char)
  | par (name : Str)
deriving DecidableEq, Repr

/-- The global scan of `/\[([^\]]+)\]/g`, written as a one-pass scanner.
The second argument is `none` outside a candidate match and `some acc`
(reversed characters seen so far) after an as yet unclosed `[`; the
leftmost match closes at the first `]` after the `[` and succeeds exactly
when at least one character stands between them, otherwise the bracket
characters are literal text. -/
def tokScan : Str → Option Str → List Tok
  | [], none => []
  | [], some acc => Tok.lit '[' :: acc.reverse.map Tok.lit
  | c :: rest, none =>
    if c = '[' then tokScan rest (some [])
    else Tok.lit c :: tokScan rest none
  | c :: rest, some acc =>
    if c = ']' then
      if acc = [] then Tok.lit '[' :: Tok.lit ']' :: tokScan rest none
      else Tok.par acc.reverse :: tokScan rest none
    else tokScan rest (some (c :: acc))

def tokenize (s : Str) : List Tok := tokScan s none

/-- The name of a placeholder token. -/
def parOf : Tok → Option Str
  | Tok.lit _ => none
  | Tok.par n => some n

/-- `extractParamKeys` (src/unnamed/part_003 lines 120-124): the contents of
the placeholder matches, in order. -/
def extractParamKeys (route : Str) : List Str :=
  (tokenize route).filterMap parOf

/-- `isDynamicRoute` (src/unnamed/part_003 lines 133-135): the placeholder
regex has at least one match. -/
def isDynamicRoute (route : Str) : Bool :=
  (tokenize route).any fun t => (parOf t).isSome

/-! ## `encodeURIComponent` / `decodeURIComponent`

Modelled per ECMA-262: characters other than ASCII alphanumerics and
`- _ . ! ~ * ' ( )` are replaced by the uppercase-hex percent-encoding of
their UTF-8 bytes; decoding reads `%XX` byte sequences back (rejecting
malformed or overlong sequences with a `URIError`, modelled as `none`). -/

def isUnreservedChar (c : Char) : Bool :=
  c.isAlphanum || c = '-' || c = '_' || c = '.' || c = '!' || c = '~' ||
    c = '*' || c = Char.ofNat 39 || c = '(' || c = ')'

def hexDigit (n : Nat) : Char :=
  if n < 10 then Char.ofNat (48 + n) else Char.ofNat (55 + n)

def hexVal (c : Char) : Option Nat :=
  if 48 ≤ c.toNat ∧ c.toNat ≤ 57 then some (c.toNat - 48)
  else if 65 ≤ c.toNat ∧ c.toNat ≤ 70 then some (c.toNat - 55)
  else if 97 ≤ c.toNat ∧ c.toNat ≤ 102 then some (c.toNat - 87)
  else none

/-- UTF-8 bytes of a code point, written arithmetically. -/
def utf8Bytes (n : Nat) : List Nat :=
  if n < 128 then [n]
  else if n < 2048 then [192 + n / 64, 128 + n % 64]
  else if n < 65536 then [224 + n / 4096, 128 + n / 64 % 64, 128 + n % 64]
  else [240 + n / 262144, 128 + n / 4096 % 64, 128 + n / 64 % 64, 128 + n % 64]

def pctByte (b : Nat) : Str := ['%', hexDigit (b / 16), hexDigit (b % 16)]

def encodeChar (c : Char) : Str :=
  if isUnreservedChar c then [c] else ((utf8Bytes c.toNat).map pctByte).flatten

def encodeURIComponent (s : Str) : Str := (s.map encodeChar).flatten

/-- The value of a `%`-free two-hex-digit pair. -/
def hexPair (a b : Char) : Option Nat :=
  match hexVal a, hexVal b with
  | some x, some y => some (16 * x + y)
  | _, _ => none

def isContByte (b : Nat) : Bool := 128 ≤ b && b < 192

/-- Phase one of `decodeURIComponent`: each `%XX` escape becomes a byte,
other characters stay; malformed escapes are a `URIError` (`none`). -/
def pctTokens : Str → Option (List (Char ⊕ Nat))
  | [] => some []
  | '%' :: a :: b :: rest =>
    match hexPair a b with
    | some x => (pctTokens rest).map (Sum.inr x :: ·)
    | none => none
  | '%' :: _ => none
  | c :: rest => (pctTokens rest).map (Sum.inl c :: ·)

/-- Phase two of `decodeURIComponent`: UTF-8 decoding of the byte tokens,
as a state machine.  The state `some (need, acc, lo)` is an open multibyte
sequence: `need` continuation bytes missing, accumulated value `acc`, and
`lo` the smallest code point legal for the sequence's length (rejecting
overlong forms); surrogates and values above `0x10FFFF` are rejected when
the sequence closes.  A raw character or the end of input inside an open
sequence, a stray continuation byte, or a lead byte `≥ 248` is a
`URIError` (`none`). -/
def utf8Dec : List (Char ⊕ Nat) → Option (Nat × Nat × Nat) → Option Str
  | [], none => some []
  | [], some _ => none
  | Sum.inl c :: rest, none => (utf8Dec rest none).map (c :: ·)
  | Sum.inl _ :: _, some _ => none
  | Sum.inr b :: rest, none =>
    if b < 128 then (utf8Dec rest none).map (Char.ofNat b :: ·)
    else if b < 192 then none
    else if b < 224 then utf8Dec rest (some (1, b - 192, 128))
    else if b < 240 then utf8Dec rest (some (2, b - 224, 2048))
    else if b < 248 then utf8Dec rest (some (3, b - 240, 65536))
    else none
  | Sum.inr b :: rest, some (need, acc, lo) =>
    if isContByte b then
      if need = 1 then
        if lo ≤ acc * 64 + (b - 128) ∧
            ¬(55296 ≤ acc * 64 + (b - 128) ∧ acc * 64 + (b - 128) < 57344) ∧
            acc * 64 + (b - 128) < 1114112 then
          (utf8Dec rest none).map (Char.ofNat (acc * 64 + (b - 128)) :: ·)
        else none
      else utf8Dec rest (some (need - 1, acc * 64 + (b - 128), lo))
    else none

def utf8Toks (t : List (Char ⊕ Nat)) : Option Str := utf8Dec t none

/-- `decodeURIComponent` per ECMA-262.  The standard reads each escape and
its continuation escapes in one pass; splitting into the two phases above
is equivalent: a continuation can only come from a `%XX` escape, and a
malformed escape anywhere raises `URIError`. -/
def decodeURIComponent (s : Str) : Option Str :=
  match pctTokens s with
  | none => none
  | some t => utf8Toks t

/-! ## `buildPath` (src/unnamed/part_003 lines 98-111)

`route.replace(/\[([^\]]+)\]/g, cb)`: literal characters pass through,
each placeholder is replaced by `encodeURIComponent` of the looked-up
value, and a missing key throws `Missing param: ...`. -/

/-- JS-object lookup in a literal record, modelled as an association list. -/
def lookupA (m : List (Str × Str)) (k : Str) : Option Str :=
  match m with
  | [] => none
  | (k', v) :: rest => if k' = k then some v else lookupA rest k

def substToks (route : Str) (m : List (Str × Str)) :
    List Tok → Except Str Str
  | [] => Except.ok []
  | Tok.lit c :: ts =>
    match substToks route m ts with
    | Except.ok s => Except.ok (c :: s)
    | Except.error e => Except.error e
  | Tok.par n :: ts =>
    match lookupA m n with
    | none =>
      Except.error ("Missing param: ".data ++ n ++ " for route: ".data ++ route)
    | some v =>
      match substToks route m ts with
      | Except.ok s => Except.ok (encodeURIComponent v ++ s)
      | Except.error e => Except.error e

def buildPath (route : Str) (params : Option (List (Str × Str))) :
    Except Str Str :=
  match params with
  | none => Except.ok route
  | some m => substToks route m (tokenize route)

/-! ## `routeToRegex` (src/unnamed/part_003 lines 144-149) and
`routePathToRegexString` (lines 256-265)

Both escape every regex metacharacter (`.replace(/[.*+?^${}()|[\]\\]/g,
"\\$&")`); `routePathToRegexString` additionally escapes `/`.  Then
`.replace(/\\\[([^\]]+)\\\]/g, "([^/]+)")` turns each escaped placeholder
into a capture group, and the result is anchored with `^` and `$`.  The
regular expression denoted by such a source string is modelled by parsing
it into a list of items (literal character or single-segment capture
group); `reMatch` is the anchored greedy backtracking matcher. -/

def isMeta (c : Char) : Bool :=
  c = '.' || c = '*' || c = '+' || c = '?' || c = '^' || c = '$' ||
    c = '{' || c = '}' || c = '(' || c = ')' || c = '|' || c = '[' ||
    c = ']' || c = '\\'

def escapeRegexChars (s : Str) : Str :=
  (s.map fun c => if isMeta c then ['\\', c] else [c]).flatten

def escapeSlashes (s : Str) : Str :=
  (s.map fun c => if c = '/' then ['\\', '/'] else [c]).flatten

/-- The replacement text `([^/]+)` inserted for each placeholder. -/
def grpToken : Str := ['(', '[', '^', '/', ']', '+', ')']

/-- The global replace `/\\\[([^\]]+)\\\]/g → "([^/]+)"` over the escaped
string, written as a one-pass scanner.  A leftmost match is `\[` ++ g ++
`\]` where g is non-empty and `]`-free, so it closes at the first `]`
after the `\[`, which must be preceded by `\` with at least one character
between it and the `[`; on failure nothing inside the candidate span can
start a match (an inner `\[` would have to close at the same `]`), so the
span is emitted verbatim.  The second argument is `some acc` (reversed
characters seen) after a pending `\[`. -/
def grpScan : Str → Option Str → Str
  | [], none => []
  | [], some acc => '\\' :: '[' :: acc.reverse
  | '\\' :: '[' :: rest2, none => grpScan rest2 (some [])
  | c :: rest, none => c :: grpScan rest none
  | c :: rest, some acc =>
    if c = ']' then
      if 2 ≤ acc.length ∧ acc.head? = some '\\' then
        grpToken ++ grpScan rest none
      else '\\' :: '[' :: (acc.reverse ++ ']' :: grpScan rest none)
    else grpScan rest (some (c :: acc))

def groupRepl (s : Str) : Str := grpScan s none

/-- An element of the regular expressions produced here: a literal
character, or the single-segment capture group `([^/]+)`. -/
inductive RItem where
  | lit (c : Char)
  | grp
deriving DecidableEq, Repr

/-- The tail of `grpToken` after its opening `(`. -/
def grpTail : Str := ['[', '^', '/', ']', '+', ')']

/-- Parses the body of a produced regex source into its items: `\c` is the
literal character `c` (these sources escape only metacharacters and `/`),
a raw `(` must open the capture group `([^/]+)`, any other raw character
must be a non-metacharacter and stands for itself.  The second argument
holds the characters of an open group token still to be consumed. -/
def parseScan : Str → Str → Option (List RItem)
  | [], [] => some []
  | [], _ :: _ => none
  | c :: rest, d :: expect => if c = d then parseScan rest expect else none
  | c :: rest, [] =>
    if c = '\\' then
      match rest with
      | d :: rest2 =>
        if isMeta d || d = '/' then (parseScan rest2 []).map (RItem.lit d :: ·)
        else none
      | [] => none
    else if c = '(' then (parseScan rest grpTail).map (RItem.grp :: ·)
    else if isMeta c then none
    else (parseScan rest []).map (RItem.lit c :: ·)

def parseItems (s : Str) : Option (List RItem) := parseScan s []

/-- Parses a full `^...$` anchored regex source. -/
def parseAnchored (src : Str) : Option (List RItem) :=
  match src with
  | '^' :: rest =>
    match rest.reverse with
    | '$' :: mid => parseItems mid.reverse
    | _ => none
  | _ => none

/-- The source text of the `RegExp` built by `routeToRegex`. -/
def routeToRegexStr (route : Str) : Str :=
  '^' :: (groupRepl (escapeRegexChars route) ++ ['$'])

/-- The `RegExp` built by `routeToRegex`, as parsed items. -/
def routeToRegex (route : Str) : Option (List RItem) :=
  parseAnchored (routeToRegexStr route)

/-- `routePathToRegexString` (src/unnamed/part_003 lines 256-265): same
pipeline but with `/` additionally escaped to `\/`. -/
def routePathToRegexString (routePath : Str) : Str :=
  '^' :: (groupRepl (escapeSlashes (escapeRegexChars routePath)) ++ ['$'])

/-- Candidate (capture, remainder) splits for `([^/]+)`, longest first, as
greedy backtracking tries them. -/
def greedySplits (input : Str) : List (Str × Str) :=
  let n := (input.takeWhile (fun c => c ≠ '/')).length
  (List.range n).map fun i => (input.take (n - i), input.drop (n - i))

/-- Anchored matching of an item list against an input, with the greedy
backtracking capture choice of JS regexes; returns the captures. -/
def reMatch : List RItem → Str → Option (List Str)
  | [], [] => some []
  | [], _ :: _ => none
  | RItem.lit _ :: _, [] => none
  | RItem.lit c :: items, d :: rest => if d = c then reMatch items rest else none
  | RItem.grp :: items, input =>
    (greedySplits input).findSome? fun pr => (reMatch items pr.2).map (pr.1 :: ·)

/-- Outcome of `matchRoute`: a parameter record, `null`, or a thrown
exception (`URIError` from `decodeURIComponent`). -/
inductive MatchResult where
  | matched (params : List (Str × Str))
  | noMatch
  | error
deriving DecidableEq, Repr

def decodeAll : List (Str × Str) → Option (List (Str × Str))
  | [] => some []
  | (k, v) :: rest =>
    match decodeURIComponent v with
    | none => none
    | some d => (decodeAll rest).map ((k, d) :: ·)

/-- `matchRoute` (src/unnamed/part_003 lines 161-178). -/
def matchRoute (pathname pattern : Str) : MatchResult :=
  match routeToRegex pattern with
  | none => MatchResult.error
  | some items =>
    match reMatch items pathname with
    | none => MatchResult.noMatch
    | some groups =>
      match decodeAll ((extractParamKeys pattern).zip groups) with
      | none => MatchResult.error
      | some ps => MatchResult.matched ps

/-! ## The directory scanner (src/unnamed/part_003 lines 186-251)

The filesystem is modelled as an explicit tree; file contents are stored
in the tree (`fs.readFileSync` in `usesRouteCreator` reads them).  A
non-existing scan root (`fs.existsSync` false) is modelled by passing
`none` for the root's entry list. -/

mutual
inductive FSEntry where
  | file (name content : Str)
  | dir (name : Str) (children : FSEntries)
inductive FSEntries where
  | nil
  | cons (e : FSEntry) (rest : FSEntries)
end

/-- Builds an entry list for concrete trees. -/
def FSEntries.ofList : List FSEntry → FSEntries
  | [] => FSEntries.nil
  | e :: rest => FSEntries.cons e (FSEntries.ofList rest)

structure ScannedRoute where
  filePath : Str
  routePath : Str
  params : List Str
  isStatic : Bool
deriving DecidableEq, Repr

def isWordChar (c : Char) : Bool := c.isAlphanum || c = '_'

/-- Does `(createRoute|createDynamicRoute)\s*\(` match at the start of
`s`?  The two alternatives differ at their seventh character, so at most
one prefix applies. -/
def matchCreatorAt (s : Str) : Bool :=
  ("createRoute".data.isPrefixOf s &&
    (match (s.drop 11).dropWhile Char.isWhitespace with
     | '(' :: _ => true
     | _ => false)) ||
  ("createDynamicRoute".data.isPrefixOf s &&
    (match (s.drop 18).dropWhile Char.isWhitespace with
     | '(' :: _ => true
     | _ => false))

/-- Scans for `\b(createRoute|createDynamicRoute)\s*\(`; the boolean
argument records whether a word boundary precedes the current position
(both alternatives start with the word character `c`). -/
def usesCreatorScan : Str → Bool → Bool
  | [], _ => false
  | c :: rest, bdry =>
    (bdry && matchCreatorAt (c :: rest)) || usesCreatorScan rest (!isWordChar c)

/-- `usesRouteCreator` (src/unnamed/part_003 lines 239-242), applied to
the file's content. -/
def usesRouteCreator (content : Str) : Bool := usesCreatorScan content true

def pageFileName (name : Str) : Bool :=
  name = "page.tsx".data || name = "page.ts".data

/-- The recursive `walk` of `scanRoutes`: entries in order; directories
whose name starts with `_` are skipped, then the exclusion predicate is
consulted on the cumulative path, then the subtree is walked; a
`page.tsx`/`page.ts` file that uses a route creator contributes one
record. -/
def walk (excludePath : Option (Str → Bool)) :
    FSEntries → Str → List Str → List ScannedRoute
  | FSEntries.nil, _, _ => []
  | FSEntries.cons (FSEntry.dir name children) rest, dirPath, segments =>
    (if name.head? = some '_' then []
     else
       let currentPath : Str := '/' :: List.intercalate ['/'] (segments ++ [name])
       let go := walk excludePath children (dirPath ++ '/' :: name) (segments ++ [name])
       match excludePath with
       | some f => if f currentPath then [] else go
       | none => go) ++
      walk excludePath rest dirPath segments
  | FSEntries.cons (FSEntry.file name content) rest, dirPath, segments =>
    (if pageFileName name && usesRouteCreator content then
       let routePath : Str := '/' :: List.intercalate ['/'] segments
       let params := extractParamKeys routePath
       [⟨dirPath ++ '/' :: name, routePath, params, params.isEmpty⟩]
     else []) ++
      walk excludePath rest dirPath segments

/-- `scanRoutes` (src/unnamed/part_003 lines 186-234); `root = none`
models a root directory for which `fs.existsSync` is false. -/
def scanRoutes (appDir : Str) (root : Option FSEntries)
    (excludePath : Option (Str → Bool)) : List ScannedRoute :=
  match root with
  | none => []
  | some entries => walk excludePath entries appDir []

/-! ## The generator (src/unnamed/part_003 lines 388-487)

`generate` sorts the scanned records with the optional caller comparator
(ES `Array.prototype.sort` with a comparator: a stable sort by
`cmp a b ≤ 0`), partitions them, and renders the two artifact texts. -/

/-- Modelled from the spec: the `typesTemplate` of the templates module is
not among the source files; per the spec templates are pure string
formatting, so it is modelled as a function of its argument strings. -/
def typesTemplate (staticHrefUnion dynamicHrefUnion paramsMap : Str) : Str :=
  "// types\n".data ++ staticHrefUnion ++ "\n--\n".data ++ dynamicHrefUnion ++
    "\n--\n".data ++ paramsMap

/-- Modelled from the spec: the `routesTemplate` of the templates module
is not among the source files; per the spec templates are pure string
formatting, so it is modelled as a function of its arguments. -/
def routesTemplate (dynamicPatterns : Str)
    (staticRoutes dynamicRoutes : List ScannedRoute) : Str :=
  "// routes\n".data ++ dynamicPatterns ++ "\n--\n".data ++
    (staticRoutes.map fun r => r.routePath ++ r.filePath).flatten ++
    (dynamicRoutes.map fun r => r.routePath ++ r.filePath).flatten

/-- `generateTypesFile` (src/unnamed/part_003 lines 426-443). -/
def generateTypesFile (staticRoutes dynamicRoutes : List ScannedRoute) : Str :=
  let staticHrefUnion :=
    List.intercalate ['\n']
      (staticRoutes.map fun r => "  | \"".data ++ r.routePath ++ ['\"'])
  let dynamicHrefUnion :=
    List.intercalate ['\n']
      (dynamicRoutes.map fun r => "  | \"".data ++ r.routePath ++ ['\"'])
  let paramsMap :=
    List.intercalate ['\n']
      (dynamicRoutes.map fun r =>
        let params :=
          List.intercalate ['\n']
            (r.params.map fun k => "    \"".data ++ k ++ "\": string;".data)
        "  \"".data ++ r.routePath ++ "\": \x7b\n".data ++ params ++
          "\n  \x7d;".data)
  typesTemplate staticHrefUnion dynamicHrefUnion paramsMap

/-- The `.replace(/\.(tsx?|jsx?)$/, "")` of `toImportPath`. -/
def stripSourceExt (s : Str) : Str :=
  if "xst.".data.isPrefixOf s.reverse || "xsj.".data.isPrefixOf s.reverse then
    s.take (s.length - 4)
  else if "st.".data.isPrefixOf s.reverse || "sj.".data.isPrefixOf s.reverse then
    s.take (s.length - 3)
  else s

def toImportPath (filePath : Str) : Str :=
  let withoutExt := stripSourceExt filePath
  if "src/".data.isPrefixOf withoutExt then "@/".data ++ withoutExt.drop 4
  else "@/".data ++ withoutExt

/-- `generateRoutesFile` (src/unnamed/part_003 lines 448-487); the
record's `importPath` rewriting is applied before the template. -/
def generateRoutesFile (staticRoutes dynamicRoutes : List ScannedRoute)
    : Str :=
  let dynamicPatterns :=
    List.intercalate (',' :: ['\n'])
      (dynamicRoutes.map fun r =>
        "  \x7b pattern: /".data ++ routePathToRegexString r.routePath ++
          "/, href: \"".data ++ r.routePath ++ "\" as const \x7d".data)
  routesTemplate dynamicPatterns
    (staticRoutes.map fun r => { r with filePath := toImportPath r.filePath })
    (dynamicRoutes.map fun r => { r with filePath := toImportPath r.filePath })

/-- The pure core of `generate` (src/unnamed/part_003 lines 388-421):
from the scanned records and the optional comparator to the texts of the
`types.ts` and `routes.ts` artifacts. -/
def generate (records : List ScannedRoute)
    (sortRoutes : Option (ScannedRoute → ScannedRoute → Int)) : Str × Str :=
  let routes :=
    match sortRoutes with
    | none => records
    | some cmp => records.mergeSort fun a b => cmp a b ≤ 0
  let staticRoutes := routes.filter (·.isStatic)
  let dynamicRoutes := routes.filter fun r => !r.isStatic
  (generateTypesFile staticRoutes dynamicRoutes,
    generateRoutesFile staticRoutes dynamicRoutes)

/-! ## Round trip of percent-encoding -/

theorem hexVal_hexDigit : ∀ x < 16, hexVal (hexDigit x) = some x := by decide

theorem hexPair_digits {b : Nat} (hb : b < 256) :
    hexPair (hexDigit (b / 16)) (hexDigit (b % 16)) = some b := by
  have h1 : hexVal (hexDigit (b / 16)) = some (b / 16) :=
    hexVal_hexDigit _ (by omega)
  have h2 : hexVal (hexDigit (b % 16)) = some (b % 16) :=
    hexVal_hexDigit _ (by omega)
  simp [hexPair, h1, h2]
  omega

theorem char_toNat_valid (c : Char) :
    c.toNat < 55296 ∨ (57343 < c.toNat ∧ c.toNat < 1114112) := c.valid

theorem unreserved_ne_pct {c : Char} (hu : isUnreservedChar c = true) :
    ¬c = '%' := by
  intro h
  rw [h] at hu
  exact absurd hu (by decide)

/-- The tokens `pctTokens` reads back from one encoded character. -/
def charTok (c : Char) : List (Char ⊕ Nat) :=
  if isUnreservedChar c then [Sum.inl c]
  else (utf8Bytes c.toNat).map Sum.inr

theorem pctTokens_cons_ne {c : Char} (hc : ¬c = '%') (s : Str) :
    pctTokens (c :: s) = (pctTokens s).map (Sum.inl c :: ·) := by
  simp [pctTokens, hc]

theorem pctTokens_pctByte {b : Nat} (hb : b < 256) (s : Str) :
    pctTokens (pctByte b ++ s) = (pctTokens s).map (Sum.inr b :: ·) := by
  simp [pctByte, pctTokens, hexPair_digits hb]

theorem utf8Bytes_lt {n : Nat} (hn : n < 1114112) :
    ∀ b ∈ utf8Bytes n, b < 256 := by
  intro b hb
  rcases Nat.lt_or_ge n 128 with h1 | h1
  · simp [utf8Bytes, h1] at hb
    omega
  rcases Nat.lt_or_ge n 2048 with h2 | h2
  · simp [utf8Bytes, h2, Nat.not_lt.mpr h1] at hb
    omega
  rcases Nat.lt_or_ge n 65536 with h3 | h3
  · simp [utf8Bytes, h3, Nat.not_lt.mpr h1, Nat.not_lt.mpr h2] at hb
    omega
  · simp [utf8Bytes, Nat.not_lt.mpr h1, Nat.not_lt.mpr h2, Nat.not_lt.mpr h3]
      at hb
    omega

theorem pctTokens_bytes {bl : List Nat} (hb : ∀ b ∈ bl, b < 256) (s : Str) :
    pctTokens ((bl.map pctByte).flatten ++ s) =
      (pctTokens s).map (bl.map Sum.inr ++ ·) := by
  induction bl with
  | nil =>
    simp only [List.map_nil, List.flatten_nil, List.nil_append]
    cases pctTokens s <;> simp
  | cons b rest ih =>
    simp only [List.map_cons, List.flatten_cons, List.append_assoc]
    rw [pctTokens_pctByte (hb b (by simp))]
    rw [ih fun x hx => hb x (by simp [hx])]
    cases pctTokens s <;> simp

theorem pctTokens_encodeChar (c : Char) (s : Str) :
    pctTokens (encodeChar c ++ s) = (pctTokens s).map (charTok c ++ ·) := by
  by_cases hu : isUnreservedChar c
  · rw [show encodeChar c = [c] from by simp [encodeChar, hu]]
    rw [show charTok c = [Sum.inl c] from by simp [charTok, hu]]
    simp [pctTokens_cons_ne (unreserved_ne_pct hu)]
  · rw [show encodeChar c = ((utf8Bytes c.toNat).map pctByte).flatten from by
      simp [encodeChar, hu]]
    rw [show charTok c = (utf8Bytes c.toNat).map Sum.inr from by
      simp [charTok, hu]]
    have hn : c.toNat < 1114112 := by
      have := char_toNat_valid c
      omega
    exact pctTokens_bytes (utf8Bytes_lt hn) s

theorem utf8Toks_inl (c : Char) (t : List (Char ⊕ Nat)) :
    utf8Toks (Sum.inl c :: t) = (utf8Toks t).map (c :: ·) := rfl

set_option maxHeartbeats 1000000 in
theorem utf8Toks_charTok (c : Char) (t : List (Char ⊕ Nat)) :
    utf8Toks (charTok c ++ t) = (utf8Toks t).map (c :: ·) := by
  have hofn : Char.ofNat c.toNat = c := Char.ofNat_toNat c
  by_cases hu : isUnreservedChar c
  · rw [show charTok c = [Sum.inl c] from by simp [charTok, hu]]
    exact utf8Toks_inl c t
  · rw [show charTok c = (utf8Bytes c.toNat).map Sum.inr from by
      simp [charTok, hu]]
    have hval := char_toNat_valid c
    rcases Nat.lt_or_ge c.toNat 128 with h1 | h1
    · simp only [utf8Bytes, h1, if_true, List.map_cons, List.map_nil,
        List.cons_append, List.nil_append, utf8Toks]
      simp [utf8Dec, h1, hofn]
    rcases Nat.lt_or_ge c.toNat 2048 with h2 | h2
    · simp only [utf8Bytes, h2, Nat.not_lt.mpr h1, if_true, if_false,
        Bool.false_eq_true, List.map_cons, List.map_nil, List.cons_append,
        List.nil_append, utf8Toks]
      have g1 : ¬(192 + c.toNat / 64) < 128 := by omega
      have g2 : ¬(192 + c.toNat / 64) < 192 := by omega
      have g3 : (192 + c.toNat / 64) < 224 := by omega
      have g4 : isContByte (128 + c.toNat % 64) = true := by
        simp [isContByte]
        omega
      have g5 : (192 + c.toNat / 64 - 192) * 64 + (128 + c.toNat % 64 - 128) =
          c.toNat := by omega
      have g6 : 128 ≤ c.toNat ∧ ¬(55296 ≤ c.toNat ∧ c.toNat < 57344) ∧
          c.toNat < 1114112 := by omega
      simp only [utf8Dec, g1, g2, g3, g4, if_false, if_true, if_neg, if_pos, g5]
      simp [g6, hofn]
    rcases Nat.lt_or_ge c.toNat 65536 with h3 | h3
    · simp only [utf8Bytes, h3, Nat.not_lt.mpr h1, Nat.not_lt.mpr h2, if_true,
        if_false, Bool.false_eq_true, List.map_cons, List.map_nil,
        List.cons_append, List.nil_append, utf8Toks]
      have g1 : ¬(224 + c.toNat / 4096) < 128 := by omega
      have g2 : ¬(224 + c.toNat / 4096) < 192 := by omega
      have g3 : ¬(224 + c.toNat / 4096) < 224 := by omega
      have g4 : (224 + c.toNat / 4096) < 240 := by omega
      have g5 : isContByte (128 + c.toNat / 64 % 64) = true := by
        simp [isContByte]
        omega
      have g6 : isContByte (128 + c.toNat % 64) = true := by
        simp [isContByte]
        omega
      have g7 : ((224 + c.toNat / 4096 - 224) * 64 +
          (128 + c.toNat / 64 % 64 - 128)) * 64 + (128 + c.toNat % 64 - 128) =
          c.toNat := by omega
      have g8 : 2048 ≤ c.toNat ∧ ¬(55296 ≤ c.toNat ∧ c.toNat < 57344) ∧
          c.toNat < 1114112 := by omega
      simp only [utf8Dec, g1, g2, g3, g4, g5, g6, if_false, if_true, if_neg,
        if_pos]
      simp only [g7]
      simp [g8, hofn]
    · simp only [utf8Bytes, Nat.not_lt.mpr h1, Nat.not_lt.mpr h2,
        Nat.not_lt.mpr h3, if_false, Bool.false_eq_true, List.map_cons,
        List.map_nil, List.cons_append, List.nil_append, utf8Toks]
      have hup : c.toNat < 1114112 := by omega
      have g1 : ¬(240 + c.toNat / 262144) < 128 := by omega
      have g2 : ¬(240 + c.toNat / 262144) < 192 := by omega
      have g3 : ¬(240 + c.toNat / 262144) < 224 := by omega
      have g4 : ¬(240 + c.toNat / 262144) < 240 := by omega
      have g5 : (240 + c.toNat / 262144) < 248 := by omega
      have g6 : isContByte (128 + c.toNat / 4096 % 64) = true := by
        simp [isContByte]
        omega
      have g7 : isContByte (128 + c.toNat / 64 % 64) = true := by
        simp [isContByte]
        omega
      have g8 : isContByte (128 + c.toNat % 64) = true := by
        simp [isContByte]
        omega
      have g9 : (((240 + c.toNat / 262144 - 240) * 64 +
          (128 + c.toNat / 4096 % 64 - 128)) * 64 +
          (128 + c.toNat / 64 % 64 - 128)) * 64 + (128 + c.toNat % 64 - 128) =
          c.toNat := by omega
      have g10 : 65536 ≤ c.toNat ∧ ¬(55296 ≤ c.toNat ∧ c.toNat < 57344) ∧
          c.toNat < 1114112 := by omega
      simp only [utf8Dec, g1, g2, g3, g4, g5, g6, g7, g8, if_false, if_true,
        if_neg, if_pos]
      simp only [g9]
      simp [g10, hofn]

theorem decode_encodeChar (c : Char) (s : Str) :
    decodeURIComponent (encodeChar c ++ s) =
      (decodeURIComponent s).map (c :: ·) := by
  unfold decodeURIComponent
  rw [pctTokens_encodeChar]
  cases pctTokens s with
  | none => simp
  | some t => simp [utf8Toks_charTok]

theorem decode_encode (v : Str) :
    decodeURIComponent (encodeURIComponent v) = some v := by
  induction v with
  | nil => simp [encodeURIComponent, decodeURIComponent, pctTokens, utf8Toks,
      utf8Dec]
  | cons c rest ih =>
    have : encodeURIComponent (c :: rest) =
        encodeChar c ++ encodeURIComponent rest := by
      simp [encodeURIComponent]
    rw [this, decode_encodeChar, ih]
    rfl

theorem encodeChar_ne_nil (c : Char) : encodeChar c ≠ [] := by
  by_cases hu : isUnreservedChar c
  · simp [encodeChar, hu]
  · simp only [encodeChar, hu, if_false, Bool.false_eq_true]
    have hval := char_toNat_valid c
    rcases Nat.lt_or_ge c.toNat 128 with h1 | h1
    · simp [utf8Bytes, h1, pctByte]
    rcases Nat.lt_or_ge c.toNat 2048 with h2 | h2
    · simp [utf8Bytes, h2, Nat.not_lt.mpr h1, pctByte]
    rcases Nat.lt_or_ge c.toNat 65536 with h3 | h3
    · simp [utf8Bytes, h3, Nat.not_lt.mpr h1, Nat.not_lt.mpr h2, pctByte]
    · simp [utf8Bytes, Nat.not_lt.mpr h1, Nat.not_lt.mpr h2, Nat.not_lt.mpr h3,
        pctByte]

theorem encodeURIComponent_ne_nil {v : Str} (hv : v ≠ []) :
    encodeURIComponent v ≠ [] := by
  match v with
  | [] => exact absurd rfl hv
  | c :: rest =>
    simp only [encodeURIComponent, List.map_cons, List.flatten_cons]
    intro h
    exact encodeChar_ne_nil c (List.append_eq_nil.mp h).1

theorem encodeChar_no_slash (c : Char) : '/' ∉ encodeChar c := by
  by_cases hu : isUnreservedChar c
  · simp only [encodeChar, hu, if_true]
    have hcs : ¬c = '/' := by
      intro h
      rw [h] at hu
      exact absurd hu (by decide)
    simp [List.mem_singleton]
    intro h
    exact hcs h.symm
  · simp only [encodeChar, hu, if_false, Bool.false_eq_true]
    have hd : ∀ x < 16, ¬hexDigit x = '/' := by decide
    have hp : ∀ b < 256, '/' ∉ pctByte b := by
      intro b hb hmem
      rw [pctByte, List.mem_cons, List.mem_cons, List.mem_singleton] at hmem
      rcases hmem with h | h | h
      · exact absurd h (by decide)
      · exact hd (b / 16) (by omega) h.symm
      · exact hd (b % 16) (by omega) h.symm
    intro hmem
    have hn : c.toNat < 1114112 := by
      have := char_toNat_valid c
      omega
    rw [List.mem_flatten] at hmem
    obtain ⟨l, hl, hcl⟩ := hmem
    rw [List.mem_map] at hl
    obtain ⟨b, hb, rfl⟩ := hl
    exact hp b (utf8Bytes_lt hn b hb) hcl

theorem encodeURIComponent_no_slash (v : Str) :
    '/' ∉ encodeURIComponent v := by
  intro hmem
  rw [encodeURIComponent, List.mem_flatten] at hmem
  obtain ⟨l, hl, hcl⟩ := hmem
  rw [List.mem_map] at hl
  obtain ⟨c, _, rfl⟩ := hl
  exact encodeChar_no_slash c hcl

/-! ## Well-formed route patterns

The spec's Route Pattern data model: `/`-delimited segments, each a
literal or a full-segment placeholder `[name]` with a non-empty name.  A
pattern is represented by its segment list; `renderSegs` produces the
pattern string (a route pattern `/user/[id]` is
`[Seg.lit [], Seg.lit "user", Seg.par "id"]`). -/

inductive Seg where
  | lit (s : Str)
  | par (name : Str)
deriving DecidableEq, Repr

def renderSeg : Seg → Str
  | Seg.lit s => s
  | Seg.par n => '[' :: (n ++ [']'])

def renderSegs : List Seg → Str
  | [] => []
  | [s] => renderSeg s
  | s :: rest => renderSeg s ++ '/' :: renderSegs rest

def segOK : Seg → Prop
  | Seg.lit s => '/' ∉ s ∧ '[' ∉ s ∧ ']' ∉ s
  | Seg.par n => n ≠ [] ∧ '/' ∉ n ∧ '[' ∉ n ∧ ']' ∉ n

instance : ∀ s : Seg, Decidable (segOK s)
  | Seg.lit s => by unfold segOK; infer_instance
  | Seg.par n => by unfold segOK; infer_instance

/-- The spec's Route Pattern invariants, over the segment encoding. -/
def patOK (segs : List Seg) : Prop := segs ≠ [] ∧ ∀ s ∈ segs, segOK s

instance (segs : List Seg) : Decidable (patOK segs) := by
  unfold patOK
  infer_instance

/-- The name of a placeholder segment. -/
def parOfSeg : Seg → Option Str
  | Seg.lit _ => none
  | Seg.par n => some n

def paramNames (segs : List Seg) : List Str := segs.filterMap parOfSeg

def segToks : Seg → List Tok
  | Seg.lit s => s.map Tok.lit
  | Seg.par n => [Tok.par n]

def segsToks : List Seg → List Tok
  | [] => []
  | [s] => segToks s
  | s :: rest => segToks s ++ Tok.lit '/' :: segsToks rest

theorem tokScan_lit_append {s : Str} (hs : '[' ∉ s) (rest : Str) :
    tokScan (s ++ rest) none = s.map Tok.lit ++ tokScan rest none := by
  induction s with
  | nil => simp
  | cons c cs ih =>
    have hc : ¬c = '[' := fun h => hs (h ▸ List.mem_cons_self c cs)
    have hcs : '[' ∉ cs := fun h => hs (List.mem_cons_of_mem c h)
    simp only [List.cons_append, tokScan, hc, if_false, List.map_cons,
      Bool.false_eq_true, List.cons_inj_right]
    exact ih hcs

theorem tokScan_par {n : Str} (hn : ']' ∉ n) :
    ∀ acc rest, (acc ≠ [] ∨ n ≠ []) →
    tokScan (n ++ ']' :: rest) (some acc) =
      Tok.par (acc.reverse ++ n) :: tokScan rest none := by
  induction n with
  | nil =>
    intro acc rest hne
    have hacc : acc ≠ [] := by
      rcases hne with h | h
      · exact h
      · exact absurd rfl h
    simp [tokScan, hacc]
  | cons c cs ih =>
    intro acc rest _
    have hc : ¬c = ']' := fun h => hn (h ▸ List.mem_cons_self c cs)
    have hcs : ']' ∉ cs := fun h => hn (List.mem_cons_of_mem c h)
    simp only [List.cons_append, tokScan, hc, if_false, Bool.false_eq_true]
    have := ih hcs (c :: acc) rest (Or.inl (by simp))
    exact this.trans (by simp)

theorem tokScan_lbr (X : Str) : tokScan ('[' :: X) none = tokScan X (some []) := by
  simp [tokScan]

theorem tokScan_slash (X : Str) :
    tokScan ('/' :: X) none = Tok.lit '/' :: tokScan X none := by
  simp [tokScan]

theorem tokScan_renderSegs : ∀ {segs : List Seg}, (∀ s ∈ segs, segOK s) →
    segs ≠ [] → tokScan (renderSegs segs) none = segsToks segs := by
  intro segs
  induction segs with
  | nil => intro _ h; exact absurd rfl h
  | cons s rest ih =>
    intro hok _
    have hs : segOK s := hok s (by simp)
    cases rest with
    | nil =>
      cases s with
      | lit l =>
        obtain ⟨_, hl, _⟩ := hs
        simpa [renderSegs, renderSeg, segsToks, segToks, tokScan] using
          tokScan_lit_append hl []
      | par n =>
        obtain ⟨hne, _, _, hr⟩ := hs
        simp only [renderSegs, renderSeg, segsToks, segToks]
        rw [tokScan_lbr]
        rw [show n ++ [']'] = n ++ ']' :: ([] : Str) from rfl]
        rw [tokScan_par hr [] [] (Or.inr hne)]
        simp [tokScan]
    | cons s2 rest2 =>
      have ihr := ih (fun x hx => hok x (List.mem_cons_of_mem s hx))
        (by simp)
      cases s with
      | lit l =>
        obtain ⟨_, hl, _⟩ := hs
        simp only [renderSegs, renderSeg, segsToks, segToks]
        rw [tokScan_lit_append hl, tokScan_slash, ihr]
      | par n =>
        obtain ⟨hne, _, _, hr⟩ := hs
        simp only [renderSegs, renderSeg, segsToks, segToks]
        rw [List.cons_append, tokScan_lbr, List.append_assoc,
          List.singleton_append]
        rw [tokScan_par hr [] _ (Or.inr hne)]
        rw [tokScan_slash, ihr]
        simp

theorem tokenize_renderSegs {segs : List Seg} (h : patOK segs) :
    tokenize (renderSegs segs) = segsToks segs :=
  tokScan_renderSegs h.2 h.1

theorem filterMap_parOf_litMap (s : Str) :
    (s.map Tok.lit).filterMap parOf = [] := by
  induction s with
  | nil => rfl
  | cons c cs ih => simp [parOf, ih]

theorem segsToks_filterMap_parOf : ∀ segs : List Seg,
    (segsToks segs).filterMap parOf = paramNames segs := by
  intro segs
  induction segs with
  | nil => rfl
  | cons s rest ih =>
    cases rest with
    | nil =>
      cases s with
      | lit l =>
        simp only [segsToks, segToks, filterMap_parOf_litMap, paramNames,
          List.filterMap_cons, parOfSeg, List.filterMap_nil]
      | par n =>
        simp only [segsToks, segToks, paramNames, List.filterMap_cons, parOf,
          parOfSeg, List.filterMap_nil]
    | cons s2 rest2 =>
      cases s with
      | lit l =>
        simp only [segsToks, segToks, List.filterMap_append,
          filterMap_parOf_litMap, List.nil_append, List.filterMap_cons, parOf]
        rw [ih]
        simp [paramNames, List.filterMap_cons, parOfSeg]
      | par n =>
        simp only [segsToks, segToks, List.filterMap_append,
          List.filterMap_cons, List.filterMap_nil, parOf,
          List.singleton_append, List.cons_inj_right]
        rw [ih]
        simp [paramNames, List.filterMap_cons, parOfSeg]

theorem extractParamKeys_renderSegs {segs : List Seg} (h : patOK segs) :
    extractParamKeys (renderSegs segs) = paramNames segs := by
  rw [extractParamKeys, tokenize_renderSegs h, segsToks_filterMap_parOf]

/-! ## The escaped pattern and its regular expression

Both `routeToRegex` and `routePathToRegexString` are instances of one
pipeline: escape every character of a set `S` (the metacharacters, plus
`/` for the latter) and replace the escaped placeholders by `([^/]+)`.
`escChar sl` is the per-character escape; the correspondence lemma
`grpScan_escape` shows that the replacement output is exactly the token
list of the raw route, rendered with escaped literals and `([^/]+)`
groups. -/

def escChar (sl : Bool) (c : Char) : Str :=
  if isMeta c || (sl && c = '/') then ['\\', c] else [c]

def escape (sl : Bool) (s : Str) : Str := (s.map (escChar sl)).flatten

/-- Regex source text of one token. -/
def tokOut (sl : Bool) : Tok → Str
  | Tok.lit c => escChar sl c
  | Tok.par _ => grpToken

def renderToks (sl : Bool) (toks : List Tok) : Str :=
  (toks.map (tokOut sl)).flatten

/-- The regex item of one token. -/
def itemOf : Tok → RItem
  | Tok.lit c => RItem.lit c
  | Tok.par _ => RItem.grp

theorem escape_append (sl : Bool) (a b : Str) :
    escape sl (a ++ b) = escape sl a ++ escape sl b := by
  simp [escape]

theorem escChar_false (c : Char) :
    escChar false c = if isMeta c then ['\\', c] else [c] := by
  simp [escChar]

theorem escapeRegexChars_eq (s : Str) : escapeRegexChars s = escape false s := by
  induction s with
  | nil => rfl
  | cons c cs ih =>
    simp only [escapeRegexChars, List.map_cons, List.flatten_cons] at *
    rw [show escape false (c :: cs) = escChar false c ++ escape false cs from by
      simp [escape]]
    rw [escChar_false, ih]

theorem escapeSlashes_append (a b : Str) :
    escapeSlashes (a ++ b) = escapeSlashes a ++ escapeSlashes b := by
  simp [escapeSlashes]

theorem escapeSlashes_escape (s : Str) :
    escapeSlashes (escapeRegexChars s) = escape true s := by
  induction s with
  | nil => rfl
  | cons c cs ih =>
    rw [show escapeRegexChars (c :: cs) =
      escapeRegexChars [c] ++ escapeRegexChars cs from by simp [escapeRegexChars]]
    rw [escapeSlashes_append, ih]
    rw [show escape true (c :: cs) = escape true [c] ++ escape true cs from by
      simp [escape]]
    congr 1
    by_cases hm : isMeta c
    · have hcs : ¬c = '/' := fun h => by
        rw [h] at hm
        exact absurd hm (by decide)
      simp [escapeRegexChars, escapeSlashes, escape, escChar, hm, hcs]
    · by_cases hs : c = '/'
      · subst hs
        simp [escapeRegexChars, escapeSlashes, escape, escChar, hm]
      · simp [escapeRegexChars, escapeSlashes, escape, escChar, hm, hs]

theorem escChar_escaped {sl : Bool} {c : Char}
    (h : (isMeta c || (sl && c = '/')) = true) : escChar sl c = ['\\', c] := by
  simp [escChar, h]

theorem escChar_plain {sl : Bool} {c : Char}
    (h : ¬(isMeta c || (sl && c = '/')) = true) : escChar sl c = [c] := by
  simp [escChar, h]

theorem escGuard_of_meta {sl : Bool} {c : Char} (h : isMeta c = true) :
    (isMeta c || (sl && c = '/')) = true := by simp [h]

theorem tokOut_comp_lit (sl : Bool) : tokOut sl ∘ Tok.lit = escChar sl :=
  funext fun _ => rfl

theorem escape_cons (sl : Bool) (c : Char) (cs : Str) :
    escape sl (c :: cs) = escChar sl c ++ escape sl cs := by
  simp [escape]

/-- The catch-all step of `grpScan` in the scanning state. -/
theorem escChar_ne_nil (sl : Bool) (c : Char) : escChar sl c ≠ [] := by
  unfold escChar
  split <;> simp

theorem escape_head_ne_lbr (sl : Bool) (s : Str) :
    ∀ x, (escape sl s) = '[' :: x → False := by
  intro x hx
  cases s with
  | nil => simp [escape] at hx
  | cons c cs =>
    rw [show escape sl (c :: cs) = escChar sl c ++ escape sl cs from by
      simp [escape]] at hx
    by_cases hg : (isMeta c || (sl && c = '/')) = true
    · rw [escChar_escaped hg] at hx
      rw [show (['\\', c] : Str) ++ escape sl cs =
        '\\' :: c :: escape sl cs from rfl] at hx
      injection hx with h1 _
      exact absurd h1 (by decide)
    · rw [escChar_plain hg] at hx
      rw [List.singleton_append] at hx
      injection hx with h1 _
      rw [h1] at hg
      exact hg (by simp [isMeta])

theorem escape_eq_nil_iff (sl : Bool) (s : Str) : escape sl s = [] ↔ s = [] := by
  cases s with
  | nil => simp [escape]
  | cons c cs =>
    simp only [escape, List.map_cons, List.flatten_cons]
    constructor
    · intro h
      exact absurd (List.append_eq_nil.mp h).1 (escChar_ne_nil sl c)
    · intro h
      exact absurd h (by simp)

theorem grpScan_cons_none {c : Char} {rest : Str}
    (h : ∀ r2, c = '\\' → rest = '[' :: r2 → False) :
    grpScan (c :: rest) none = c :: grpScan rest none :=
  grpScan.eq_4 c rest h

theorem grpScan_cons_some (c : Char) (rest acc : Str) :
    grpScan (c :: rest) (some acc) =
      if c = ']' then
        if 2 ≤ acc.length ∧ acc.head? = some '\\' then
          grpToken ++ grpScan rest none
        else '\\' :: '[' :: (acc.reverse ++ ']' :: grpScan rest none)
      else grpScan rest (some (c :: acc)) :=
  grpScan.eq_5 c rest acc

theorem grpScan_open (rest : Str) :
    grpScan ('\\' :: '[' :: rest) none = grpScan rest (some []) :=
  grpScan.eq_3 rest

/-- The central correspondence: scanning the escaped route for escaped
placeholders produces exactly the escaped literals and `([^/]+)` groups
of the raw route's token scan, in both scanner states. -/
theorem grpScan_escape (sl : Bool) : ∀ s : Str,
    (grpScan (escape sl s) none = renderToks sl (tokScan s none)) ∧
    (∀ racc : Str,
      grpScan (escape sl s) (some ((escape sl racc.reverse).reverse)) =
        renderToks sl (tokScan s (some racc))) := by
  intro s
  induction s with
  | nil =>
    constructor
    · rfl
    · intro racc
      rw [show escape sl [] = [] from rfl]
      rw [grpScan.eq_2]
      rw [List.reverse_reverse]
      rw [tokScan.eq_2]
      simp only [renderToks, List.map_cons, List.flatten_cons, List.map_map]
      rw [show tokOut sl (Tok.lit '[') = ['\\', '['] from
        escChar_escaped (escGuard_of_meta (by decide))]
      simp [escape, tokOut_comp_lit]
  | cons c cs ih =>
    obtain ⟨ihA, ihB⟩ := ih
    constructor
    · rw [escape_cons]
      by_cases hlb : c = '['
      · subst hlb
        rw [escChar_escaped (escGuard_of_meta (by decide))]
        rw [show (['\\', '['] : Str) ++ escape sl cs =
          '\\' :: '[' :: escape sl cs from rfl]
        rw [grpScan_open]
        have hB := ihB []
        simp only [List.reverse_nil, show escape sl [] = [] from rfl] at hB
        rw [hB]
        rw [show tokScan ('[' :: cs) none = tokScan cs (some []) from by
          simp [tokScan]]
      · by_cases hesc : (isMeta c || (sl && c = '/')) = true
        · rw [escChar_escaped hesc]
          rw [show (['\\', c] : Str) ++ escape sl cs =
            '\\' :: c :: escape sl cs from rfl]
          rw [grpScan_cons_none (fun r2 _ h2 => hlb (by injection h2))]
          rw [grpScan_cons_none (fun r2 hc h2 =>
            escape_head_ne_lbr sl cs r2 h2)]
          rw [ihA]
          rw [show tokScan (c :: cs) none = Tok.lit c :: tokScan cs none from by
            simp [tokScan, hlb]]
          simp only [renderToks, List.map_cons, List.flatten_cons, tokOut]
          rw [escChar_escaped hesc]
          rfl
        · rw [escChar_plain hesc]
          have hbs : ¬c = '\\' := fun h => by
            rw [h] at hesc
            exact hesc (by simp [isMeta])
          rw [show ([c] : Str) ++ escape sl cs = c :: escape sl cs from rfl]
          rw [grpScan_cons_none (fun r2 hc _ => hbs hc)]
          rw [ihA]
          rw [show tokScan (c :: cs) none = Tok.lit c :: tokScan cs none from by
            simp [tokScan, hlb]]
          simp only [renderToks, List.map_cons, List.flatten_cons, tokOut]
          rw [escChar_plain hesc]
          rfl
    · intro racc
      rw [escape_cons]
      by_cases hrb : c = ']'
      · subst hrb
        rw [escChar_escaped (escGuard_of_meta (by decide))]
        rw [show (['\\', ']'] : Str) ++ escape sl cs =
          '\\' :: ']' :: escape sl cs from rfl]
        rw [grpScan_cons_some]
        rw [if_neg (by decide)]
        rw [grpScan_cons_some]
        rw [if_pos rfl]
        by_cases hracc : racc = []
        · subst hracc
          rw [if_neg (by simp [escape])]
          rw [show tokScan (']' :: cs) (some []) =
            Tok.lit '[' :: Tok.lit ']' :: tokScan cs none from by
              simp [tokScan]]
          simp only [renderToks, List.map_cons, List.flatten_cons, tokOut]
          rw [escChar_escaped (escGuard_of_meta (by decide))]
          rw [escChar_escaped (escGuard_of_meta (by decide))]
          rw [ihA]
          simp [escape, renderToks]
        · have hg : (escape sl racc.reverse).reverse ≠ [] := by
            intro h
            rw [show ([] : Str) = List.reverse [] from rfl] at h
            have := List.reverse_injective h
            rw [escape_eq_nil_iff] at this
            exact hracc (by
              have : racc.reverse.reverse = List.reverse [] := by rw [this]
              simpa using this)
          rw [if_pos ⟨by
            cases h : (escape sl racc.reverse).reverse with
            | nil => exact absurd h hg
            | cons a l => simp, rfl⟩]
          rw [ihA]
          rw [show tokScan (']' :: cs) (some racc) =
            Tok.par racc.reverse :: tokScan cs none from by
              simp [tokScan, hracc]]
          simp only [renderToks, List.map_cons, List.flatten_cons, tokOut]
      · by_cases hesc : (isMeta c || (sl && c = '/')) = true
        · rw [escChar_escaped hesc]
          rw [show (['\\', c] : Str) ++ escape sl cs =
            '\\' :: c :: escape sl cs from rfl]
          rw [grpScan_cons_some]
          rw [if_neg (by decide)]
          rw [grpScan_cons_some]
          rw [if_neg hrb]
          have hup : c :: '\\' :: (escape sl racc.reverse).reverse =
              (escape sl ((c :: racc).reverse)).reverse := by
            rw [show (c :: racc).reverse = racc.reverse ++ [c] from by simp]
            rw [escape_append]
            rw [List.reverse_append]
            rw [show escape sl [c] = escChar sl c from by simp [escape]]
            rw [escChar_escaped hesc]
            rfl
          rw [hup, ihB (c :: racc)]
          rw [show tokScan (c :: cs) (some racc) =
            tokScan cs (some (c :: racc)) from by simp [tokScan, hrb]]
        · rw [escChar_plain hesc]
          rw [show ([c] : Str) ++ escape sl cs = c :: escape sl cs from rfl]
          rw [grpScan_cons_some]
          rw [if_neg hrb]
          have hup : c :: (escape sl racc.reverse).reverse =
              (escape sl ((c :: racc).reverse)).reverse := by
            rw [show (c :: racc).reverse = racc.reverse ++ [c] from by simp]
            rw [escape_append]
            rw [List.reverse_append]
            rw [show escape sl [c] = escChar sl c from by simp [escape]]
            rw [escChar_plain hesc]
            rfl
          rw [hup, ihB (c :: racc)]
          rw [show tokScan (c :: cs) (some racc) =
            tokScan cs (some (c :: racc)) from by simp [tokScan, hrb]]

theorem parseItems_plain {c : Char} (r : Str) (h1 : ¬c = '\\') (h2 : ¬c = '(')
    (h3 : ¬isMeta c = true) :
    parseItems (c :: r) = (parseItems r).map (RItem.lit c :: ·) := by
  show parseScan (c :: r) [] = (parseScan r []).map (RItem.lit c :: ·)
  cases r with
  | nil => rw [parseScan.eq_5, if_neg h1, if_neg h2, if_neg h3]
  | cons d r2 => rw [parseScan.eq_4, if_neg h1, if_neg h2, if_neg h3]

theorem parseItems_esc {c : Char} (r : Str) (h : (isMeta c || c = '/') = true) :
    parseItems ('\\' :: c :: r) = (parseItems r).map (RItem.lit c :: ·) := by
  show parseScan ('\\' :: c :: r) [] = (parseScan r []).map (RItem.lit c :: ·)
  rw [parseScan.eq_4, if_pos rfl, if_pos h]

theorem parseItems_grpToken (r : Str) :
    parseItems (grpToken ++ r) = (parseItems r).map (RItem.grp :: ·) := rfl

theorem parseItems_escChar (sl : Bool) (c : Char) (r : Str) :
    parseItems (escChar sl c ++ r) = (parseItems r).map (RItem.lit c :: ·) := by
  by_cases hg : (isMeta c || (sl && c = '/')) = true
  · rw [escChar_escaped hg]
    have h2 : (isMeta c || c = '/') = true := by
      rcases Bool.or_eq_true_iff.mp hg with h | h
      · simp [h]
      · simp [(Bool.and_eq_true_iff.mp h).2]
    exact parseItems_esc r h2
  · rw [escChar_plain hg]
    have hm : ¬isMeta c = true := fun h => hg (by simp [h])
    have h1 : ¬c = '\\' := fun h => hm (h ▸ by decide)
    have h2 : ¬c = '(' := fun h => hm (h ▸ by decide)
    exact parseItems_plain r h1 h2 hm

theorem renderToks_cons (sl : Bool) (t : Tok) (ts : List Tok) :
    renderToks sl (t :: ts) = tokOut sl t ++ renderToks sl ts := by
  simp [renderToks]

theorem parseItems_renderToks (sl : Bool) : ∀ toks : List Tok,
    parseItems (renderToks sl toks) = some (toks.map itemOf) := by
  intro toks
  induction toks with
  | nil => rfl
  | cons t ts ih =>
    rw [renderToks_cons]
    cases t with
    | lit c =>
      rw [show tokOut sl (Tok.lit c) = escChar sl c from rfl]
      rw [parseItems_escChar, ih]
      rfl
    | par n =>
      rw [show tokOut sl (Tok.par n) = grpToken from rfl]
      rw [parseItems_grpToken, ih]
      rfl

theorem parseAnchored_wrap (xs : Str) :
    parseAnchored ('^' :: (xs ++ ['$'])) = parseItems xs := by
  simp only [parseAnchored]
  rw [show (xs ++ ['$']).reverse = '$' :: xs.reverse from by simp]
  simp [List.reverse_reverse]

/-- The `RegExp` built by `routeToRegex`, for every route, is the token
list of the raw route rendered as items. -/
theorem routeToRegex_eq (route : Str) :
    routeToRegex route = some ((tokenize route).map itemOf) := by
  rw [routeToRegex, routeToRegexStr, escapeRegexChars_eq]
  rw [show groupRepl (escape false route) = renderToks false (tokenize route)
    from (grpScan_escape false route).1]
  rw [parseAnchored_wrap]
  exact parseItems_renderToks false (tokenize route)

/-- The regex source produced by `routePathToRegexString` denotes the very
same item list. -/
theorem routePathToRegexString_parse (route : Str) :
    parseAnchored (routePathToRegexString route) =
      some ((tokenize route).map itemOf) := by
  rw [routePathToRegexString, escapeSlashes_escape]
  rw [show groupRepl (escape true route) = renderToks true (tokenize route)
    from (grpScan_escape true route).1]
  rw [parseAnchored_wrap]
  exact parseItems_renderToks true (tokenize route)

/-- Matching a path against the regex denoted by a produced source string:
the anchored test together with its capture list. -/
def regexStrMatch (src path : Str) : Option (List Str) :=
  match parseAnchored src with
  | none => none
  | some items => reMatch items path

/-! ## Segment-level behaviour of the matcher -/

/-- Pattern segments matched against the `/`-split of a concrete path:
literal segments must be equal, placeholder segments capture any non-empty
piece. -/
def matchSegs : List Seg → List Str → Option (List Str)
  | [], [] => some []
  | Seg.lit s :: segs, x :: xs => if x = s then matchSegs segs xs else none
  | Seg.par _ :: segs, x :: xs =>
    if x = [] then none else (matchSegs segs xs).map (x :: ·)
  | _, _ => none

/-- Splitting a path on `/` (`"".split` style: never empty, empty pieces
kept). -/
def splitSlash : Str → List Str
  | [] => [[]]
  | c :: rest =>
    if c = '/' then [] :: splitSlash rest
    else
      match splitSlash rest with
      | [] => [[c]]
      | x :: xs => (c :: x) :: xs

def segsItems (segs : List Seg) : List RItem := (segsToks segs).map itemOf

theorem splitSlash_ne_nil (q : Str) : splitSlash q ≠ [] := by
  cases q with
  | nil => simp [splitSlash]
  | cons c rest =>
    rw [splitSlash]
    split
    · simp
    · split <;> simp

theorem splitSlash_no_slash {x : Str} (h : '/' ∉ x) : splitSlash x = [x] := by
  induction x with
  | nil => rfl
  | cons c cs ih =>
    have hc : ¬c = '/' := fun hh => h (hh ▸ List.mem_cons_self c cs)
    have hcs : '/' ∉ cs := fun hh => h (List.mem_cons_of_mem c hh)
    rw [splitSlash, if_neg hc, ih hcs]

theorem splitSlash_append {x : Str} (h : '/' ∉ x) (t : Str) :
    splitSlash (x ++ '/' :: t) = x :: splitSlash t := by
  induction x with
  | nil => simp [splitSlash]
  | cons c cs ih =>
    have hc : ¬c = '/' := fun hh => h (hh ▸ List.mem_cons_self c cs)
    have hcs : '/' ∉ cs := fun hh => h (List.mem_cons_of_mem c hh)
    rw [List.cons_append, splitSlash, if_neg hc, ih hcs]

theorem exists_slash_split {q : Str} (h : '/' ∈ q) :
    ∃ x t, q = x ++ '/' :: t ∧ '/' ∉ x := by
  induction q with
  | nil => simp at h
  | cons c rest ih =>
    by_cases hc : c = '/'
    · exact ⟨[], rest, by rw [hc]; rfl, by simp⟩
    · have : '/' ∈ rest := by
        rcases List.mem_cons.mp h with h1 | h1
        · exact absurd h1.symm hc
        · exact h1
      obtain ⟨x, t, hq, hx⟩ := ih this
      exact ⟨c :: x, t, by rw [hq]; rfl, by
        intro hm
        rcases List.mem_cons.mp hm with h1 | h1
        · exact hc h1.symm
        · exact hx h1⟩

theorem reMatch_litItems (s : Str) : ∀ (X : List RItem) (q : Str),
    reMatch (s.map RItem.lit ++ X) q =
      if s <+: q then reMatch X (q.drop s.length) else none := by
  induction s with
  | nil => intro X q; simp
  | cons c cs ih =>
    intro X q
    cases q with
    | nil =>
      simp only [List.map_cons, List.cons_append, reMatch]
      rw [if_neg (by simp)]
    | cons d q' =>
      simp only [List.map_cons, List.cons_append, reMatch]
      by_cases hd : d = c
      · subst hd
        rw [if_pos rfl]
        rw [show (List.map RItem.lit cs).append X =
          List.map RItem.lit cs ++ X from rfl]
        rw [ih]
        by_cases hp : cs <+: q'
        · rw [if_pos hp, if_pos (List.cons_prefix_cons.mpr ⟨rfl, hp⟩)]
          simp
        · rw [if_neg hp, if_neg (fun hh => hp (List.cons_prefix_cons.mp hh).2)]
      · rw [if_neg hd]
        rw [if_neg (fun hh => hd ((List.cons_prefix_cons.mp hh).1).symm)]

theorem reMatch_slash_none {q : Str} (h : '/' ∉ q) (Y : List RItem) :
    reMatch (RItem.lit '/' :: Y) q = none := by
  cases q with
  | nil => rfl
  | cons d q' =>
    have hd : ¬d = '/' := fun hh => h (hh ▸ List.mem_cons_self d q')
    simp [reMatch, hd]

theorem reMatch_slash_cons (t : Str) (Y : List RItem) :
    reMatch (RItem.lit '/' :: Y) ('/' :: t) = reMatch Y t := by
  simp [reMatch]

theorem takeWhile_no_slash {x : Str} (h : '/' ∉ x) :
    x.takeWhile (fun c => c ≠ '/') = x := by
  induction x with
  | nil => rfl
  | cons c cs ih =>
    have hc : ¬c = '/' := fun hh => h (hh ▸ List.mem_cons_self c cs)
    have hcs : '/' ∉ cs := fun hh => h (List.mem_cons_of_mem c hh)
    simp [List.takeWhile_cons, hc, ih hcs]
    exact fun x hx hh => hcs (hh ▸ hx)

theorem takeWhile_slash_append {x : Str} (h : '/' ∉ x) (t : Str) :
    (x ++ '/' :: t).takeWhile (fun c => c ≠ '/') = x := by
  induction x with
  | nil => simp [List.takeWhile_cons]
  | cons c cs ih =>
    have hc : ¬c = '/' := fun hh => h (hh ▸ List.mem_cons_self c cs)
    have hcs : '/' ∉ cs := fun hh => h (List.mem_cons_of_mem c hh)
    simp only [List.cons_append, List.takeWhile_cons]
    simp [hc]
    simpa using ih hcs

theorem reMatch_lit_head_ne {c d : Char} (hd : ¬d = c) (X : List RItem)
    (r : Str) : reMatch (RItem.lit c :: X) (d :: r) = none := by
  simp [reMatch, hd]

theorem reMatch_lit_nil (c : Char) (X : List RItem) :
    reMatch (RItem.lit c :: X) [] = none := rfl

theorem reMatch_grp_eq (X : List RItem) (q : Str) :
    reMatch (RItem.grp :: X) q =
      (greedySplits q).findSome? fun pr => (reMatch X pr.2).map (pr.1 :: ·) :=
  rfl

theorem reMatch_grp_all_none {q : Str} {X : List RItem}
    (hall : ∀ k, 1 ≤ k → k ≤ (q.takeWhile (fun c => c ≠ '/')).length →
      reMatch X (q.drop k) = none) :
    reMatch (RItem.grp :: X) q = none := by
  rw [reMatch_grp_eq]
  rw [List.findSome?_eq_none]
  intro pr hpr
  simp only [greedySplits, List.mem_map, List.mem_range] at hpr
  obtain ⟨i, hi, rfl⟩ := hpr
  rw [hall ((q.takeWhile (fun c => c ≠ '/')).length - i) (by omega) (by omega)]
  rfl

theorem reMatch_grp_last {q : Str} (h : '/' ∉ q) (hne : q ≠ []) :
    reMatch [RItem.grp] q = some [q] := by
  rw [reMatch_grp_eq]
  have hn : (q.takeWhile (fun c => c ≠ '/')).length = q.length := by
    rw [takeWhile_no_slash h]
  obtain ⟨m, hm⟩ : ∃ m, q.length = m + 1 :=
    ⟨q.length - 1, by cases q with | nil => exact absurd rfl hne | cons a l => simp⟩
  simp only [greedySplits, hn, hm, List.range_succ_eq_map, List.map_cons,
    Nat.sub_zero, List.findSome?_cons]
  rw [show q.take (m + 1) = q from by rw [← hm]; exact List.take_length q]
  rw [show q.drop (m + 1) = [] from by rw [← hm]; exact List.drop_length q]
  rfl

theorem reMatch_grp_last_slash {x : Str} (hx : '/' ∉ x) (t : Str) :
    reMatch [RItem.grp] (x ++ '/' :: t) = none := by
  apply reMatch_grp_all_none
  intro k hk1 hk2
  rw [takeWhile_slash_append hx] at hk2
  cases hdrop : (x ++ '/' :: t).drop k with
  | nil =>
    have : (x ++ '/' :: t).length ≤ k := by
      have := congrArg List.length hdrop
      simp at this
      omega
    simp at this
    omega
  | cons d r => rfl

theorem reMatch_grp_mid_noslash {q : Str} (h : '/' ∉ q) (Y : List RItem) :
    reMatch (RItem.grp :: RItem.lit '/' :: Y) q = none := by
  apply reMatch_grp_all_none
  intro k hk1 hk2
  rw [takeWhile_no_slash h] at hk2
  cases hdrop : q.drop k with
  | nil => exact reMatch_lit_nil _ _
  | cons d r =>
    have hd : d ∈ q := by
      have : d ∈ q.drop k := by rw [hdrop]; simp
      exact List.mem_of_mem_drop this
    exact reMatch_lit_head_ne (fun hh : d = '/' => h (hh ▸ hd)) _ _

theorem reMatch_grp_slash {x : Str} (hx : '/' ∉ x) (t : Str) (Y : List RItem) :
    reMatch (RItem.grp :: RItem.lit '/' :: Y) (x ++ '/' :: t) =
      if x = [] then none else (reMatch Y t).map (x :: ·) := by
  by_cases hxe : x = []
  · subst hxe
    rw [if_pos rfl]
    apply reMatch_grp_all_none
    intro k hk1 hk2
    rw [show (([] : Str) ++ '/' :: t).takeWhile (fun c => c ≠ '/') = [] from by
      simp [List.takeWhile_cons]] at hk2
    simp only [List.length_nil] at hk2
    omega
  · rw [if_neg hxe]
    rw [reMatch_grp_eq]
    have hn : ((x ++ '/' :: t).takeWhile (fun c => c ≠ '/')).length = x.length :=
      by rw [takeWhile_slash_append hx]
    obtain ⟨m, hm⟩ : ∃ m, x.length = m + 1 :=
      ⟨x.length - 1, by cases x with
        | nil => exact absurd rfl hxe
        | cons a l => simp⟩
    have htail :
        (((List.range m).map Nat.succ).map fun i =>
            ((x ++ '/' :: t).take (m + 1 - i),
              (x ++ '/' :: t).drop (m + 1 - i))).findSome?
          (fun pr => (reMatch (RItem.lit '/' :: Y) pr.2).map (pr.1 :: ·)) =
          none := by
      rw [List.findSome?_eq_none]
      intro pr hpr
      simp only [List.map_map, List.mem_map, List.mem_range,
        Function.comp] at hpr
      obtain ⟨i, hi, rfl⟩ := hpr
      have hk0 : m + 1 - Nat.succ i ≤ x.length := by omega
      rw [List.drop_append_of_le_length hk0]
      cases hdx : x.drop (m + 1 - Nat.succ i) with
      | nil =>
        have := congrArg List.length hdx
        simp at this
        omega
      | cons d r =>
        have hd : d ∈ x := by
          have : d ∈ x.drop (m + 1 - Nat.succ i) := by rw [hdx]; simp
          exact List.mem_of_mem_drop this
        rw [List.cons_append]
        rw [reMatch_lit_head_ne (fun hh : d = '/' => hx (hh ▸ hd))]
        rfl
    simp only [greedySplits, hn, hm, List.range_succ_eq_map, List.map_cons,
      Nat.sub_zero, List.findSome?_cons]
    rw [show (x ++ '/' :: t).take (m + 1) = x from by
      rw [← hm]; exact List.take_left x ('/' :: t)]
    rw [show (x ++ '/' :: t).drop (m + 1) = '/' :: t from by
      rw [← hm]; exact List.drop_left x ('/' :: t)]
    rw [reMatch_slash_cons]
    cases hY : reMatch Y t with
    | some r => rfl
    | none => exact htail

theorem segsItems_single_lit (s : Str) :
    segsItems [Seg.lit s] = s.map RItem.lit := by
  simp [segsItems, segsToks, segToks, List.map_map, Function.comp, itemOf]

theorem segsItems_single_par (n : Str) :
    segsItems [Seg.par n] = [RItem.grp] := by
  simp [segsItems, segsToks, segToks, itemOf]

theorem segsItems_cons_lit (s : Str) (s2 : Seg) (rest2 : List Seg) :
    segsItems (Seg.lit s :: s2 :: rest2) =
      s.map RItem.lit ++ RItem.lit '/' :: segsItems (s2 :: rest2) := by
  simp [segsItems, segsToks, segToks, List.map_map, Function.comp, itemOf]

theorem segsItems_cons_par (n : Str) (s2 : Seg) (rest2 : List Seg) :
    segsItems (Seg.par n :: s2 :: rest2) =
      RItem.grp :: RItem.lit '/' :: segsItems (s2 :: rest2) := by
  simp [segsItems, segsToks, segToks, itemOf]

theorem matchSegs_cons_nil (s : Seg) (segs : List Seg) :
    matchSegs (s :: segs) [] = none := by
  cases s <;> rfl

theorem drop_prefix_head {l x : Str} (t : Str) (hl : '/' ∉ l) (hx : '/' ∉ x)
    (hp : l <+: x ++ '/' :: t) (hne : ¬x = l) :
    ∃ d r, (x ++ '/' :: t).drop l.length = d :: r ∧ ¬d = '/' := by
  obtain ⟨rr, hrr⟩ := hp
  have hlen : l.length ≤ x.length := by
    by_contra hgt
    push_neg at hgt
    have h1 : (l ++ rr)[x.length]? = some '/' := by
      rw [hrr, List.getElem?_append_right (le_refl x.length)]
      simp
    rw [List.getElem?_append_left hgt] at h1
    exact hl (List.mem_iff_getElem?.mpr ⟨x.length, h1⟩)
  have hleq : l = x.take l.length := by
    have h2 := congrArg (List.take l.length) hrr
    rw [List.take_left l rr, List.take_append_of_le_length hlen] at h2
    exact h2
  have hlt : l.length < x.length := by
    rcases Nat.lt_or_ge l.length x.length with h1 | h1
    · exact h1
    · have heq : l.length = x.length := by omega
      have h3 := hleq
      rw [heq, List.take_length] at h3
      exact absurd h3.symm hne
  rw [List.drop_append_of_le_length hlen]
  cases hdx : x.drop l.length with
  | nil =>
    have := congrArg List.length hdx
    simp at this
    omega
  | cons d r =>
    have hd : d ∈ x := by
      have hmem : d ∈ x.drop l.length := by
        rw [hdx]
        exact List.mem_cons_self d r
      exact List.mem_of_mem_drop hmem
    exact ⟨d, r ++ '/' :: t, rfl, fun hdd : d = '/' => hx (hdd ▸ hd)⟩

theorem reMatch_segsItems : ∀ segs : List Seg, (∀ s ∈ segs, segOK s) →
    segs ≠ [] → ∀ q : Str,
    reMatch (segsItems segs) q = matchSegs segs (splitSlash q) := by
  intro segs
  induction segs with
  | nil => intro _ h; exact absurd rfl h
  | cons s rest ih =>
    intro hok _ q
    cases rest with
    | nil =>
      cases s with
      | lit l =>
        have hl : '/' ∉ l := (hok _ (List.mem_cons_self _ _)).1
        rw [segsItems_single_lit,
          show l.map RItem.lit = l.map RItem.lit ++ [] from
            (List.append_nil _).symm,
          reMatch_litItems]
        by_cases hq : '/' ∈ q
        · obtain ⟨x, t, rfl, hx⟩ := exists_slash_split hq
          rw [splitSlash_append hx]
          cases hst : splitSlash t with
          | nil => exact absurd hst (splitSlash_ne_nil t)
          | cons y ys =>
            rw [show matchSegs [Seg.lit l] (x :: y :: ys) =
              if x = l then matchSegs [] (y :: ys) else none from rfl]
            by_cases hxl : x = l
            · rw [if_pos hxl, if_pos ⟨'/' :: t, by rw [hxl]⟩]
              obtain rfl := hxl
              rw [List.drop_left x ('/' :: t)]
              rfl
            · rw [if_neg hxl]
              by_cases hp : l <+: x ++ '/' :: t
              · rw [if_pos hp]
                obtain ⟨d, r, hdr, _⟩ := drop_prefix_head t hl hx hp hxl
                rw [hdr]
                rfl
              · rw [if_neg hp]
        · rw [splitSlash_no_slash hq,
            show matchSegs [Seg.lit l] [q] =
              if q = l then matchSegs [] [] else none from rfl]
          by_cases hql : q = l
          · obtain rfl := hql
            rw [if_pos List.prefix_rfl, if_pos rfl, List.drop_length]
            rfl
          · rw [if_neg hql]
            by_cases hp : l <+: q
            · rw [if_pos hp]
              have hlt : l.length < q.length := by
                rcases Nat.lt_or_ge l.length q.length with h1 | h1
                · exact h1
                · exact absurd (hp.eq_of_length (by
                    have := hp.length_le
                    omega)).symm hql
              cases hdq : q.drop l.length with
              | nil =>
                have := congrArg List.length hdq
                simp at this
                omega
              | cons d r => rfl
            · rw [if_neg hp]
      | par n =>
        rw [segsItems_single_par]
        by_cases hq : '/' ∈ q
        · obtain ⟨x, t, rfl, hx⟩ := exists_slash_split hq
          rw [reMatch_grp_last_slash hx, splitSlash_append hx]
          cases hst : splitSlash t with
          | nil => exact absurd hst (splitSlash_ne_nil t)
          | cons y ys =>
            rw [show matchSegs [Seg.par n] (x :: y :: ys) =
              if x = [] then none
              else (matchSegs [] (y :: ys)).map (x :: ·) from rfl]
            by_cases hxe : x = []
            · rw [if_pos hxe]
            · rw [if_neg hxe]
              rfl
        · rw [splitSlash_no_slash hq]
          by_cases hqe : q = []
          · obtain rfl := hqe
            rfl
          · rw [reMatch_grp_last hq hqe,
              show matchSegs [Seg.par n] [q] =
                if q = [] then none
                else (matchSegs [] []).map (q :: ·) from rfl,
              if_neg hqe]
            rfl
    | cons s2 rest2 =>
      have hok2 : ∀ s ∈ s2 :: rest2, segOK s :=
        fun s hs => hok s (List.mem_cons_of_mem _ hs)
      have ih2 := ih hok2 (by simp)
      cases s with
      | lit l =>
        have hl : '/' ∉ l := (hok _ (List.mem_cons_self _ _)).1
        rw [segsItems_cons_lit, reMatch_litItems]
        by_cases hq : '/' ∈ q
        · obtain ⟨x, t, rfl, hx⟩ := exists_slash_split hq
          rw [splitSlash_append hx,
            show matchSegs (Seg.lit l :: s2 :: rest2) (x :: splitSlash t) =
              if x = l then matchSegs (s2 :: rest2) (splitSlash t)
              else none from rfl]
          by_cases hxl : x = l
          · rw [if_pos hxl, if_pos ⟨'/' :: t, by rw [hxl]⟩]
            obtain rfl := hxl
            rw [List.drop_left x ('/' :: t), reMatch_slash_cons]
            exact ih2 t
          · rw [if_neg hxl]
            by_cases hp : l <+: x ++ '/' :: t
            · rw [if_pos hp]
              obtain ⟨d, r, hdr, hd⟩ := drop_prefix_head t hl hx hp hxl
              rw [hdr, reMatch_lit_head_ne hd]
            · rw [if_neg hp]
        · rw [splitSlash_no_slash hq,
            show matchSegs (Seg.lit l :: s2 :: rest2) [q] =
              if q = l then matchSegs (s2 :: rest2) [] else none from rfl,
            matchSegs_cons_nil]
          by_cases hp : l <+: q
          · rw [if_pos hp]
            have hnd : '/' ∉ q.drop l.length :=
              fun hm => hq (List.mem_of_mem_drop hm)
            rw [reMatch_slash_none hnd, ite_self]
          · rw [if_neg hp, ite_self]
      | par n =>
        rw [segsItems_cons_par]
        by_cases hq : '/' ∈ q
        · obtain ⟨x, t, rfl, hx⟩ := exists_slash_split hq
          rw [reMatch_grp_slash hx, splitSlash_append hx,
            show matchSegs (Seg.par n :: s2 :: rest2) (x :: splitSlash t) =
              if x = [] then none
              else (matchSegs (s2 :: rest2) (splitSlash t)).map
                (x :: ·) from rfl]
          by_cases hxe : x = []
          · rw [if_pos hxe, if_pos hxe]
          · rw [if_neg hxe, if_neg hxe, ih2 t]
        · rw [reMatch_grp_mid_noslash hq, splitSlash_no_slash hq,
            show matchSegs (Seg.par n :: s2 :: rest2) [q] =
              if q = [] then none
              else (matchSegs (s2 :: rest2) []).map (q :: ·) from rfl,
            matchSegs_cons_nil]
          by_cases hqe : q = []
          · rw [if_pos hqe]
          · rw [if_neg hqe]
            rfl

/-! ## Shape of the extracted placeholder names -/

theorem tokScan_par_names : ∀ (s : Str) (acc : Option Str),
    (∀ racc, acc = some racc → ']' ∉ racc) →
    ∀ n ∈ (tokScan s acc).filterMap parOf, n ≠ [] ∧ ']' ∉ n := by
  intro s
  induction s with
  | nil =>
    intro acc hacc n hn
    cases acc with
    | none => simp [tokScan] at hn
    | some racc =>
      simp only [tokScan, List.filterMap_cons, parOf,
        filterMap_parOf_litMap] at hn
      exact absurd hn (List.not_mem_nil n)
  | cons c cs ih =>
    intro acc hacc n hn
    cases acc with
    | none =>
      by_cases hc : c = '['
      · rw [show tokScan (c :: cs) none = tokScan cs (some []) from by
          simp [tokScan, hc]] at hn
        refine ih (some []) ?_ n hn
        intro racc h
        injection h with h'
        subst h'
        exact List.not_mem_nil ']'
      · rw [show tokScan (c :: cs) none = Tok.lit c :: tokScan cs none from by
          simp [tokScan, hc]] at hn
        simp only [List.filterMap_cons, parOf] at hn
        exact ih none (fun _ h => by cases h) n hn
    | some racc =>
      by_cases hc : c = ']'
      · by_cases hr : racc = []
        · rw [show tokScan (c :: cs) (some racc) =
            Tok.lit '[' :: Tok.lit ']' :: tokScan cs none from by
              simp [tokScan, hc, hr]] at hn
          simp only [List.filterMap_cons, parOf] at hn
          exact ih none (fun _ h => by cases h) n hn
        · rw [show tokScan (c :: cs) (some racc) =
            Tok.par racc.reverse :: tokScan cs none from by
              simp [tokScan, hc, hr]] at hn
          simp only [List.filterMap_cons, parOf] at hn
          rcases List.mem_cons.mp hn with rfl | hn'
          · refine ⟨by simp [hr], ?_⟩
            intro hm
            exact hacc racc rfl (List.mem_reverse.mp hm)
          · exact ih none (fun _ h => by cases h) n hn'
      · rw [show tokScan (c :: cs) (some racc) =
          tokScan cs (some (c :: racc)) from by simp [tokScan, hc]] at hn
        refine ih (some (c :: racc)) ?_ n hn
        intro racc' h
        injection h with h'
        subst h'
        intro hm
        rcases List.mem_cons.mp hm with h1 | h1
        · exact hc h1.symm
        · exact hacc racc rfl h1

theorem count_grp_itemOf : ∀ toks : List Tok,
    (toks.map itemOf).count RItem.grp = (toks.filterMap parOf).length := by
  intro toks
  induction toks with
  | nil => rfl
  | cons t ts ih =>
    cases t with
    | lit c => simp [itemOf, parOf, List.count_cons, ih, List.filterMap_cons]
    | par n => simp [itemOf, parOf, List.count_cons, ih, List.filterMap_cons]

/-! ## Success and failure of the parameter substitution -/

/-- What one token of the route contributes to a successfully built path:
literal characters unchanged, placeholder values percent-encoded. -/
def tokSub (m : List (Str × Str)) : Tok → Str
  | Tok.lit c => [c]
  | Tok.par n => encodeURIComponent ((lookupA m n).getD [])

theorem substToks_ok (route : Str) (m : List (Str × Str)) :
    ∀ toks : List Tok, (∀ n ∈ toks.filterMap parOf, (lookupA m n).isSome) →
    substToks route m toks = Except.ok ((toks.map (tokSub m)).flatten) := by
  intro toks
  induction toks with
  | nil => intro _; rfl
  | cons t ts ih =>
    intro hall
    cases t with
    | lit c =>
      have hts : ∀ n ∈ ts.filterMap parOf, (lookupA m n).isSome := by
        intro n hn
        exact hall n (by simp [List.filterMap_cons, parOf, hn])
      rw [show substToks route m (Tok.lit c :: ts) =
        (match substToks route m ts with
         | Except.ok s => Except.ok (c :: s)
         | Except.error e => Except.error e) from rfl]
      rw [ih hts]
      simp [tokSub]
    | par n =>
      have hn : (lookupA m n).isSome := by
        refine hall n ?_
        simp [List.filterMap_cons, parOf]
      have hts : ∀ n ∈ ts.filterMap parOf, (lookupA m n).isSome := by
        intro n' hn'
        refine hall n' ?_
        simp [List.filterMap_cons, parOf, hn']
      obtain ⟨v, hv⟩ := Option.isSome_iff_exists.mp hn
      rw [show substToks route m (Tok.par n :: ts) =
        (match lookupA m n with
         | none => Except.error
             ("Missing param: ".data ++ n ++ " for route: ".data ++ route)
         | some v =>
           match substToks route m ts with
           | Except.ok s => Except.ok (encodeURIComponent v ++ s)
           | Except.error e => Except.error e) from rfl]
      rw [hv, ih hts]
      simp [tokSub, hv]

theorem substToks_err (route : Str) (m : List (Str × Str)) :
    ∀ toks : List Tok, ∀ n ∈ toks.filterMap parOf, lookupA m n = none →
    ∃ e, substToks route m toks = Except.error e := by
  intro toks
  induction toks with
  | nil => intro n hn; exact absurd hn (List.not_mem_nil n)
  | cons t ts ih =>
    intro n hn hnone
    cases t with
    | lit c =>
      simp only [List.filterMap_cons, parOf] at hn
      obtain ⟨e, he⟩ := ih n hn hnone
      exact ⟨e, by
        rw [show substToks route m (Tok.lit c :: ts) =
          (match substToks route m ts with
           | Except.ok s => Except.ok (c :: s)
           | Except.error e => Except.error e) from rfl, he]⟩
    | par n' =>
      cases hl : lookupA m n' with
      | none =>
        exact ⟨"Missing param: ".data ++ n' ++ " for route: ".data ++ route, by
          rw [show substToks route m (Tok.par n' :: ts) =
            (match lookupA m n' with
             | none => Except.error
                 ("Missing param: ".data ++ n' ++ " for route: ".data ++ route)
             | some v =>
               match substToks route m ts with
               | Except.ok s => Except.ok (encodeURIComponent v ++ s)
               | Except.error e => Except.error e) from rfl, hl]⟩
      | some v =>
        simp only [List.filterMap_cons, parOf] at hn
        rcases List.mem_cons.mp hn with rfl | hn'
        · rw [hl] at hnone
          cases hnone
        · obtain ⟨e, he⟩ := ih n hn' hnone
          exact ⟨e, by
            rw [show substToks route m (Tok.par n' :: ts) =
              (match lookupA m n' with
               | none => Except.error
                   ("Missing param: ".data ++ n' ++ " for route: ".data ++ route)
               | some v =>
                 match substToks route m ts with
                 | Except.ok s => Except.ok (encodeURIComponent v ++ s)
                 | Except.error e => Except.error e) from rfl, hl, he]⟩

/-! ## The built path of a rendered pattern -/

/-- The concrete path piece a segment becomes under `buildPath`. -/
def segPiece (m : List (Str × Str)) : Seg → Str
  | Seg.lit s => s
  | Seg.par n => encodeURIComponent ((lookupA m n).getD [])

/-- The pattern with every placeholder replaced by its encoded value. -/
def substSegs (m : List (Str × Str)) (segs : List Seg) : List Seg :=
  segs.map fun s => Seg.lit (segPiece m s)

theorem segToks_flatten_tokSub (m : List (Str × Str)) (s : Seg) :
    ((segToks s).map (tokSub m)).flatten = segPiece m s := by
  cases s with
  | lit l =>
    simp only [segToks, segPiece, List.map_map]
    induction l with
    | nil => rfl
    | cons c cs ih => simp_all [tokSub, Function.comp]
  | par n => simp [segToks, segPiece, tokSub]

theorem segsToks_flatten_tokSub (m : List (Str × Str)) :
    ∀ segs : List Seg,
    ((segsToks segs).map (tokSub m)).flatten = renderSegs (substSegs m segs) := by
  intro segs
  induction segs with
  | nil => rfl
  | cons s rest ih =>
    cases rest with
    | nil =>
      show ((segToks s).map (tokSub m)).flatten = renderSeg (Seg.lit (segPiece m s))
      rw [segToks_flatten_tokSub]
      rfl
    | cons s2 rest2 =>
      show (((segToks s ++ Tok.lit '/' :: segsToks (s2 :: rest2))).map
          (tokSub m)).flatten =
        segPiece m s ++ '/' :: renderSegs (substSegs m (s2 :: rest2))
      rw [List.map_append, List.flatten_append, segToks_flatten_tokSub]
      rw [show (((Tok.lit '/' :: segsToks (s2 :: rest2))).map
          (tokSub m)).flatten =
        '/' :: ((segsToks (s2 :: rest2)).map (tokSub m)).flatten from rfl]
      rw [ih]

/-- `buildPath` on a rendered pattern, all parameters present: the result
is the pattern with each placeholder replaced by its encoded value. -/
theorem buildPath_renderSegs {segs : List Seg} {m : List (Str × Str)}
    (h : patOK segs)
    (hall : ∀ n ∈ paramNames segs, (lookupA m n).isSome) :
    buildPath (renderSegs segs) (some m) =
      Except.ok (renderSegs (substSegs m segs)) := by
  show substToks (renderSegs segs) m (tokenize (renderSegs segs)) = _
  rw [tokenize_renderSegs h]
  rw [substToks_ok _ m _ (by rw [segsToks_filterMap_parOf]; exact hall)]
  rw [segsToks_flatten_tokSub]

theorem splitSlash_substSegs {m : List (Str × Str)} : ∀ {segs : List Seg},
    (∀ s ∈ segs, '/' ∉ segPiece m s) → segs ≠ [] →
    splitSlash (renderSegs (substSegs m segs)) = segs.map (segPiece m) := by
  intro segs
  induction segs with
  | nil => intro _ h; exact absurd rfl h
  | cons s rest ih =>
    intro hall _
    cases rest with
    | nil =>
      show splitSlash (renderSeg (Seg.lit (segPiece m s))) = [segPiece m s]
      exact splitSlash_no_slash (hall s (List.mem_cons_self _ _))
    | cons s2 rest2 =>
      show splitSlash (segPiece m s ++ '/' ::
          renderSegs (substSegs m (s2 :: rest2))) = _
      rw [splitSlash_append (hall s (List.mem_cons_self _ _))]
      rw [ih (fun x hx => hall x (List.mem_cons_of_mem _ hx)) (by simp)]
      rfl

theorem paramNames_cons_lit (l : Str) (rest : List Seg) :
    paramNames (Seg.lit l :: rest) = paramNames rest := by
  simp [paramNames, List.filterMap_cons, parOfSeg]

theorem paramNames_cons_par (n : Str) (rest : List Seg) :
    paramNames (Seg.par n :: rest) = n :: paramNames rest := by
  simp [paramNames, List.filterMap_cons, parOfSeg]

/-- The matcher on the pieces of a built path: literal segments agree with
themselves, each placeholder captures its (non-empty) encoded value. -/
theorem matchSegs_substPieces (m : List (Str × Str)) : ∀ segs : List Seg,
    (∀ n ∈ paramNames segs, segPiece m (Seg.par n) ≠ []) →
    matchSegs segs (segs.map (segPiece m)) =
      some ((paramNames segs).map (segPiece m ∘ Seg.par)) := by
  intro segs
  induction segs with
  | nil => intro _; rfl
  | cons s rest ih =>
    intro hall
    cases s with
    | lit l =>
      have hrest : ∀ n ∈ paramNames rest, segPiece m (Seg.par n) ≠ [] := by
        intro n hn
        refine hall n ?_
        rw [paramNames_cons_lit]
        exact hn
      show (if segPiece m (Seg.lit l) = l then
        matchSegs rest (rest.map (segPiece m)) else none) = _
      rw [if_pos (show segPiece m (Seg.lit l) = l from rfl), ih hrest,
        paramNames_cons_lit]
    | par n =>
      have hn : segPiece m (Seg.par n) ≠ [] := by
        refine hall n ?_
        rw [paramNames_cons_par]
        exact List.mem_cons_self n _
      have hrest : ∀ n' ∈ paramNames rest, segPiece m (Seg.par n') ≠ [] := by
        intro n' hn'
        refine hall n' ?_
        rw [paramNames_cons_par]
        exact List.mem_cons_of_mem n hn'
      show (if segPiece m (Seg.par n) = [] then none
        else (matchSegs rest (rest.map (segPiece m))).map
          (segPiece m (Seg.par n) :: ·)) = _
      rw [if_neg hn, ih hrest, paramNames_cons_par]
      rfl

theorem decodeAll_zip_encode (g : Str → Str) : ∀ names : List Str,
    decodeAll (names.zip (names.map fun n => encodeURIComponent (g n))) =
      some (names.map fun n => (n, g n)) := by
  intro names
  induction names with
  | nil => rfl
  | cons n rest ih =>
    show (match decodeURIComponent (encodeURIComponent (g n)) with
      | none => none
      | some d =>
        (decodeAll (rest.zip (rest.map fun n =>
          encodeURIComponent (g n)))).map ((n, d) :: ·)) = _
    rw [decode_encode, ih]
    rfl

/-! ## Mismatching paths -/

/-- A pattern/pieces pair with a literal-segment disagreement (at equal
positions, within the common length). -/
def litClash : List Seg → List Str → Bool
  | Seg.lit s :: segs, x :: xs => if x = s then litClash segs xs else true
  | Seg.par _ :: segs, _ :: xs => litClash segs xs
  | _, _ => false

theorem matchSegs_none_of_mismatch : ∀ (segs : List Seg) (xs : List Str),
    (xs.length ≠ segs.length ∨ litClash segs xs = true) →
    matchSegs segs xs = none := by
  intro segs
  induction segs with
  | nil =>
    intro xs h
    cases xs with
    | nil =>
      rcases h with h | h
      · exact absurd rfl h
      · exact absurd h (by simp [litClash])
    | cons x xs => rfl
  | cons s rest ih =>
    intro xs h
    cases xs with
    | nil => exact matchSegs_cons_nil s rest
    | cons x xs =>
      cases s with
      | lit l =>
        show (if x = l then matchSegs rest xs else none) = none
        by_cases hx : x = l
        · rw [if_pos hx]
          apply ih
          rcases h with h | h
          · exact Or.inl fun he => h (by simp [he])
          · refine Or.inr ?_
            rw [show litClash (Seg.lit l :: rest) (x :: xs) =
              if x = l then litClash rest xs else true from rfl,
              if_pos hx] at h
            exact h
        · rw [if_neg hx]
      | par n =>
        show (if x = [] then none
          else (matchSegs rest xs).map (x :: ·)) = none
        have hrec : matchSegs rest xs = none := by
          apply ih
          rcases h with h | h
          · exact Or.inl fun he => h (by simp [he])
          · exact Or.inr h
        by_cases hx : x = []
        · rw [if_pos hx]
        · rw [if_neg hx, hrec]
          rfl

/-! ## Scanner characterization -/

def esSize : FSEntries → Nat
  | FSEntries.nil => 0
  | FSEntries.cons (FSEntry.file _ _) rest => 1 + esSize rest
  | FSEntries.cons (FSEntry.dir _ children) rest =>
    1 + esSize children + esSize rest

/-- A derivation that the scanner, walking `es` at `dirPath` with the
accumulated `segments`, emits the record `r`: at a `page.tsx`/`page.ts`
file of the current list whose content uses a route creator, or inside a
child directory that is neither `_`-prefixed nor excluded, or further
along the list.  The route pattern is `/` joined from the segments (the
root's empty segment list giving `/`). -/
inductive Finds (ex : Option (Str → Bool)) :
    FSEntries → Str → List Str → ScannedRoute → Prop
  | file_here (name content : Str) (rest : FSEntries) (dirPath : Str)
      (segments : List Str)
      (hpage : pageFileName name = true)
      (huse : usesRouteCreator content = true) :
      Finds ex (FSEntries.cons (FSEntry.file name content) rest) dirPath
        segments
        ⟨dirPath ++ '/' :: name, '/' :: List.intercalate ['/'] segments,
          extractParamKeys ('/' :: List.intercalate ['/'] segments),
          (extractParamKeys
            ('/' :: List.intercalate ['/'] segments)).isEmpty⟩
  | in_dir (name : Str) (children rest : FSEntries) (dirPath : Str)
      (segments : List Str) (r : ScannedRoute)
      (hname : name.head? ≠ some '_')
      (hex : ∀ f, ex = some f →
        f ('/' :: List.intercalate ['/'] (segments ++ [name])) = false)
      (hrec : Finds ex children (dirPath ++ '/' :: name)
        (segments ++ [name]) r) :
      Finds ex (FSEntries.cons (FSEntry.dir name children) rest) dirPath
        segments r
  | in_rest (e : FSEntry) (rest : FSEntries) (dirPath : Str)
      (segments : List Str) (r : ScannedRoute)
      (hrec : Finds ex rest dirPath segments r) :
      Finds ex (FSEntries.cons e rest) dirPath segments r

theorem walk_mem_bounded (ex : Option (Str → Bool)) : ∀ N : Nat,
    ∀ es : FSEntries, esSize es ≤ N → ∀ (dirPath : Str)
    (segments : List Str) (r : ScannedRoute),
    (r ∈ walk ex es dirPath segments ↔ Finds ex es dirPath segments r) := by
  intro N
  induction N with
  | zero =>
    intro es h dirPath segments r
    cases es with
    | nil =>
      constructor
      · intro hm
        exact absurd hm (List.not_mem_nil r)
      · intro hf
        cases hf
    | cons e rest =>
      exfalso
      cases e <;> simp [esSize] at h
  | succ n ihN =>
    intro es h dirPath segments r
    cases es with
    | nil =>
      constructor
      · intro hm
        exact absurd hm (List.not_mem_nil r)
      · intro hf
        cases hf
    | cons e rest =>
      cases e with
      | file name content =>
        have hr : esSize rest ≤ n := by
          simp only [esSize] at h
          omega
        rw [show walk ex (FSEntries.cons (FSEntry.file name content) rest)
            dirPath segments =
          (if pageFileName name && usesRouteCreator content then
            [⟨dirPath ++ '/' :: name,
              '/' :: List.intercalate ['/'] segments,
              extractParamKeys ('/' :: List.intercalate ['/'] segments),
              (extractParamKeys
                ('/' :: List.intercalate ['/'] segments)).isEmpty⟩]
           else []) ++ walk ex rest dirPath segments from rfl]
        constructor
        · intro hm
          rcases List.mem_append.mp hm with hm1 | hm2
          · by_cases hg : (pageFileName name && usesRouteCreator content)
              = true
            · rw [if_pos hg] at hm1
              obtain rfl := List.mem_singleton.mp hm1
              obtain ⟨h1, h2⟩ := Bool.and_eq_true_iff.mp hg
              exact Finds.file_here name content rest dirPath segments h1 h2
            · rw [if_neg hg] at hm1
              exact absurd hm1 (List.not_mem_nil r)
          · exact Finds.in_rest _ _ _ _ _ ((ihN rest hr _ _ r).mp hm2)
        · intro hf
          cases hf with
          | file_here _ _ _ _ _ hpage huse =>
            apply List.mem_append.mpr
            left
            rw [if_pos (by rw [hpage, huse]; rfl)]
            exact List.mem_singleton.mpr rfl
          | in_rest _ _ _ _ _ hrec =>
            exact List.mem_append.mpr
              (Or.inr ((ihN rest hr _ _ r).mpr hrec))
      | dir name children =>
        have hc : esSize children ≤ n := by
          simp only [esSize] at h
          omega
        have hr : esSize rest ≤ n := by
          simp only [esSize] at h
          omega
        cases ex with
        | none =>
          rw [show walk none
              (FSEntries.cons (FSEntry.dir name children) rest)
              dirPath segments =
            (if name.head? = some '_' then []
             else walk none children (dirPath ++ '/' :: name)
               (segments ++ [name])) ++
            walk none rest dirPath segments from rfl]
          constructor
          · intro hm
            rcases List.mem_append.mp hm with hm1 | hm2
            · by_cases hu : name.head? = some '_'
              · rw [if_pos hu] at hm1
                exact absurd hm1 (List.not_mem_nil r)
              · rw [if_neg hu] at hm1
                exact Finds.in_dir name children rest dirPath segments r hu
                  (fun f hf => by cases hf)
                  ((ihN children hc _ _ r).mp hm1)
            · exact Finds.in_rest _ _ _ _ _ ((ihN rest hr _ _ r).mp hm2)
          · intro hf
            cases hf with
            | in_dir _ _ _ _ _ _ hname hex hrec =>
              apply List.mem_append.mpr
              left
              rw [if_neg hname]
              exact (ihN children hc _ _ r).mpr hrec
            | in_rest _ _ _ _ _ hrec =>
              exact List.mem_append.mpr
                (Or.inr ((ihN rest hr _ _ r).mpr hrec))
        | some f =>
          rw [show walk (some f)
              (FSEntries.cons (FSEntry.dir name children) rest)
              dirPath segments =
            (if name.head? = some '_' then []
             else if f ('/' :: List.intercalate ['/'] (segments ++ [name]))
               then []
               else walk (some f) children (dirPath ++ '/' :: name)
                 (segments ++ [name])) ++
            walk (some f) rest dirPath segments from rfl]
          constructor
          · intro hm
            rcases List.mem_append.mp hm with hm1 | hm2
            · by_cases hu : name.head? = some '_'
              · rw [if_pos hu] at hm1
                exact absurd hm1 (List.not_mem_nil r)
              · rw [if_neg hu] at hm1
                by_cases hfc :
                  f ('/' :: List.intercalate ['/'] (segments ++ [name]))
                    = true
                · rw [if_pos hfc] at hm1
                  exact absurd hm1 (List.not_mem_nil r)
                · rw [if_neg hfc] at hm1
                  refine Finds.in_dir name children rest dirPath segments r
                    hu ?_ ((ihN children hc _ _ r).mp hm1)
                  intro g hg
                  injection hg with hg'
                  subst hg'
                  cases hb :
                    f ('/' :: List.intercalate ['/'] (segments ++ [name]))
                  · rfl
                  · exact absurd hb hfc
            · exact Finds.in_rest _ _ _ _ _ ((ihN rest hr _ _ r).mp hm2)
          · intro hf
            cases hf with
            | in_dir _ _ _ _ _ _ hname hex hrec =>
              apply List.mem_append.mpr
              left
              have hfc :
                  f ('/' :: List.intercalate ['/'] (segments ++ [name]))
                    = false := hex f rfl
              rw [if_neg hname, hfc, if_neg Bool.false_ne_true]
              exact (ihN children hc _ _ r).mpr hrec
            | in_rest _ _ _ _ _ hrec =>
              exact List.mem_append.mpr
                (Or.inr ((ihN rest hr _ _ r).mpr hrec))

/-! ## The claims -/

/-- C1.  The spec claims the round trip
`matchRoute (buildPath p values) p = values` for every value map whose
values contain no `/` and only URL-safe or properly-encoded characters.
As stated this fails for an explicitly-present empty value (see the
counterexample); with the values additionally required non-empty it
holds, for every well-formed pattern and every association map binding
each placeholder name: `buildPath` succeeds with the placeholders
replaced by their percent-encoded values, and matching the built path
against the pattern recovers exactly the bound values (any characters,
`/` included, survive the encode/decode round trip). -/
theorem buildPath_matchRoute_roundtrip (segs : List Seg)
    (m : List (Str × Str)) (hpat : patOK segs)
    (hvals : ∀ n ∈ paramNames segs,
      lookupA m n ≠ none ∧ lookupA m n ≠ some []) :
    buildPath (renderSegs segs) (some m) =
      Except.ok (renderSegs (substSegs m segs)) ∧
    matchRoute (renderSegs (substSegs m segs)) (renderSegs segs) =
      MatchResult.matched
        ((paramNames segs).map fun n => (n, (lookupA m n).getD [])) := by
  have hall : ∀ n ∈ paramNames segs, (lookupA m n).isSome := by
    intro n hn
    exact Option.isSome_iff_ne_none.mpr (hvals n hn).1
  have hsl : ∀ s ∈ segs, '/' ∉ segPiece m s := by
    intro s hs
    cases s with
    | lit l => exact (hpat.2 _ hs).1
    | par n => exact encodeURIComponent_no_slash _
  have hne : ∀ n ∈ paramNames segs, segPiece m (Seg.par n) ≠ [] := by
    intro n hn
    show encodeURIComponent ((lookupA m n).getD []) ≠ []
    cases hl : lookupA m n with
    | none => exact absurd hl (hvals n hn).1
    | some v =>
      have hv : v ≠ [] := fun he => (hvals n hn).2 (by rw [hl, he])
      exact encodeURIComponent_ne_nil hv
  have h1 : routeToRegex (renderSegs segs) = some (segsItems segs) := by
    rw [routeToRegex_eq, tokenize_renderSegs hpat]
    rfl
  have h2 : reMatch (segsItems segs) (renderSegs (substSegs m segs)) =
      some ((paramNames segs).map (segPiece m ∘ Seg.par)) := by
    rw [reMatch_segsItems segs hpat.2 hpat.1,
      splitSlash_substSegs hsl hpat.1]
    exact matchSegs_substPieces m segs hne
  have h3 : decodeAll ((extractParamKeys (renderSegs segs)).zip
      ((paramNames segs).map (segPiece m ∘ Seg.par))) =
      some ((paramNames segs).map fun n => (n, (lookupA m n).getD [])) := by
    rw [extractParamKeys_renderSegs hpat]
    exact decodeAll_zip_encode (fun n => (lookupA m n).getD [])
      (paramNames segs)
  refine ⟨buildPath_renderSegs hpat hall, ?_⟩
  simp only [matchRoute, h1, h2, h3]

/-- C1, witness: the pattern `/user/[id]` with `id = "a/b"` (the slash is
percent-encoded on the way out and decoded on the way back). -/
theorem buildPath_matchRoute_roundtrip_witness :
    buildPath
        (renderSegs [Seg.lit [], Seg.lit "user".data, Seg.par "id".data])
        (some [("id".data, "a/b".data)]) =
      Except.ok (renderSegs (substSegs [("id".data, "a/b".data)]
        [Seg.lit [], Seg.lit "user".data, Seg.par "id".data])) ∧
    matchRoute
        (renderSegs (substSegs [("id".data, "a/b".data)]
          [Seg.lit [], Seg.lit "user".data, Seg.par "id".data]))
        (renderSegs [Seg.lit [], Seg.lit "user".data, Seg.par "id".data]) =
      MatchResult.matched
        ((paramNames
            [Seg.lit [], Seg.lit "user".data, Seg.par "id".data]).map
          fun n => (n, (lookupA [("id".data, "a/b".data)] n).getD [])) :=
  buildPath_matchRoute_roundtrip
    [Seg.lit [], Seg.lit "user".data, Seg.par "id".data]
    [("id".data, "a/b".data)] (by decide) (by decide)

/-- C1, counterexample to the claim as the spec states it: the empty
string contains no `/` and only URL-safe characters, yet with
`id = ""` the built path `/user/` does not match back (the capture group
`([^/]+)` requires a non-empty segment), so nothing is recovered. -/
theorem buildPath_matchRoute_empty_value :
    buildPath "/user/[id]".data (some [("id".data, [])]) =
      Except.ok "/user/".data ∧
    matchRoute "/user/".data "/user/[id]".data = MatchResult.noMatch := by
  constructor
  · rfl
  · decide

/-- C2.  `buildPath` with a supplied value map fails (with a
missing-parameter error) exactly when some placeholder name of the route
is absent from the map — a key present with the empty string is not
absent — and on success the result is the route's tokens with literal
characters unchanged and each placeholder value percent-encoded. -/
theorem buildPath_error_iff_missing (route : Str) (m : List (Str × Str)) :
    ((∃ e, buildPath route (some m) = Except.error e) ↔
      ∃ n ∈ extractParamKeys route, lookupA m n = none) ∧
    ((∀ n ∈ extractParamKeys route, (lookupA m n).isSome) →
      buildPath route (some m) =
        Except.ok (((tokenize route).map (tokSub m)).flatten)) := by
  constructor
  · constructor
    · rintro ⟨e, he⟩
      by_cases hall : ∀ n ∈ extractParamKeys route, (lookupA m n).isSome
      · rw [show buildPath route (some m) =
          substToks route m (tokenize route) from rfl,
          substToks_ok route m (tokenize route) hall] at he
        cases he
      · push_neg at hall
        obtain ⟨n, hn, hnone⟩ := hall
        exact ⟨n, hn, Option.not_isSome_iff_eq_none.mp hnone⟩
    · rintro ⟨n, hn, hnone⟩
      exact substToks_err route m (tokenize route) n hn hnone
  · intro hall
    exact substToks_ok route m (tokenize route) hall

/-- C3.  For a well-formed pattern, any concrete path whose `/`-split has
a different number of segments than the pattern, or disagrees with one of
the pattern's literal segments, yields the explicit no-match result — a
normal return value, not an error. -/
theorem matchRoute_noMatch_of_mismatch (segs : List Seg) (q : Str)
    (hpat : patOK segs)
    (hmm : (splitSlash q).length ≠ segs.length ∨
      litClash segs (splitSlash q) = true) :
    matchRoute q (renderSegs segs) = MatchResult.noMatch := by
  have h1 : routeToRegex (renderSegs segs) = some (segsItems segs) := by
    rw [routeToRegex_eq, tokenize_renderSegs hpat]
    rfl
  have h2 : reMatch (segsItems segs) q = none := by
    rw [reMatch_segsItems segs hpat.2 hpat.1]
    exact matchSegs_none_of_mismatch segs (splitSlash q) hmm
  simp only [matchRoute, h1, h2]

/-- C3, witness: `/user` against the pattern `/user/[id]` (two pieces
against three segments). -/
theorem matchRoute_noMatch_of_mismatch_witness :
    matchRoute "/user".data
      (renderSegs [Seg.lit [], Seg.lit "user".data, Seg.par "id".data]) =
      MatchResult.noMatch :=
  matchRoute_noMatch_of_mismatch
    [Seg.lit [], Seg.lit "user".data, Seg.par "id".data] "/user".data
    (by decide) (by decide)

/-- C4.  What the bracket scan recognizes: every extracted placeholder
name is non-empty and free of `]` (empty `[]` and unterminated brackets
are literal text), the runtime regex always parses, and it has exactly
one capture group per extracted placeholder, in the same order.  The
spec's further claim that bracket contents never span a `/` is false
(see the counterexample): `[^\]]+` admits `/`. -/
theorem extractParamKeys_shape (route : Str) :
    (∀ n ∈ extractParamKeys route, n ≠ [] ∧ ']' ∉ n) ∧
    routeToRegex route = some ((tokenize route).map itemOf) ∧
    ((tokenize route).map itemOf).count RItem.grp =
      (extractParamKeys route).length :=
  ⟨tokScan_par_names route none (fun _ h => by cases h),
    routeToRegex_eq route,
    count_grp_itemOf (tokenize route)⟩

/-- C4, counterexample: in `/[a/b]` the bracket pair spans a `/`, yet it
is recognized as the placeholder `a/b` and compiled to a capture
group. -/
theorem extractParamKeys_slash_spanning :
    extractParamKeys "/[a/b]".data = ["a/b".data] ∧
    routeToRegex "/[a/b]".data = some [RItem.lit '/', RItem.grp] := by
  constructor
  · rfl
  · rfl

/-- C5.  A directory entry whose name starts with `_`, or for which the
caller's exclusion predicate returns true on the cumulative path
including its name, contributes nothing to the walk: the output over an
entry list containing it equals the output with the whole subtree
removed, at any depth (`dirPath`/`segments` arbitrary). -/
theorem walk_skips_excluded (ex : Str → Bool) (name : Str)
    (children es : FSEntries) (dirPath : Str) (segments : List Str)
    (h : name.head? = some '_' ∨
      ex ('/' :: List.intercalate ['/'] (segments ++ [name])) = true) :
    walk (some ex) (FSEntries.cons (FSEntry.dir name children) es) dirPath
        segments =
      walk (some ex) es dirPath segments := by
  rw [show walk (some ex)
      (FSEntries.cons (FSEntry.dir name children) es) dirPath segments =
    (if name.head? = some '_' then []
     else if ex ('/' :: List.intercalate ['/'] (segments ++ [name]))
       then []
       else walk (some ex) children (dirPath ++ '/' :: name)
         (segments ++ [name])) ++
    walk (some ex) es dirPath segments from rfl]
  by_cases hu : name.head? = some '_'
  · rw [if_pos hu, List.nil_append]
  · rcases h with h | h
    · exact absurd h hu
    · rw [if_neg hu, if_pos h, List.nil_append]

/-- C5, witness: a `_private` directory holding a page file contributes
nothing. -/
theorem walk_skips_excluded_witness :
    walk (some fun _ => false)
      (FSEntries.cons (FSEntry.dir "_private".data
        (FSEntries.cons (FSEntry.file "page.tsx".data "x".data)
          FSEntries.nil))
        FSEntries.nil) "/app".data [] =
    walk (some fun _ => false) FSEntries.nil "/app".data [] :=
  walk_skips_excluded _ _ _ _ _ _ (Or.inl (by decide))

/-- C6.  The scanner's records, characterized: a record is produced
exactly by a derivation reaching a `page.tsx`/`page.ts` file whose
content has an invocation-like route-creator token, through directories
that are neither `_`-prefixed nor excluded; the record's route pattern is
`/` joined from the segments between root and the file's directory, the
empty segment list (root) giving `/`. -/
theorem scanRoutes_mem_iff (appDir : Str) (root : FSEntries)
    (ex : Option (Str → Bool)) (r : ScannedRoute) :
    r ∈ scanRoutes appDir (some root) ex ↔ Finds ex root appDir [] r :=
  walk_mem_bounded ex (esSize root) root (Nat.le_refl _) appDir [] r

/-- C7.  A missing scan root (`fs.existsSync` false) yields the empty
record list, not an error. -/
theorem scanRoutes_missing_root (appDir : Str) (ex : Option (Str → Bool)) :
    scanRoutes appDir none ex = [] := rfl

/-- C8.  The generation-time pattern source and the runtime regex denote
the same regular expression: `routePathToRegexString p` parses to exactly
the item list of `routeToRegex p`, so on every path both produce the same
match outcome with the same captures in the same order. -/
theorem routePathToRegexString_agrees (route path : Str) :
    parseAnchored (routePathToRegexString route) = routeToRegex route ∧
    regexStrMatch (routePathToRegexString route) path =
      regexStrMatch (routeToRegexStr route) path := by
  have h : parseAnchored (routePathToRegexString route) = routeToRegex route :=
    (routePathToRegexString_parse route).trans (routeToRegex_eq route).symm
  refine ⟨h, ?_⟩
  rw [regexStrMatch, regexStrMatch, h]
  rfl

/-- C9.  The generated artifacts are pure functions of the scanned
records and the comparator: `generate` renders the two file texts from a
sorted permutation of its input records, so equal record sequences and
comparator give byte-identical artifact texts (idempotent
regeneration). -/
theorem generate_deterministic (records : List ScannedRoute)
    (cmp : ScannedRoute → ScannedRoute → Int) :
    ∃ sorted : List ScannedRoute, sorted.Perm records ∧
      generate records (some cmp) =
        (generateTypesFile (sorted.filter (·.isStatic))
            (sorted.filter fun r => !r.isStatic),
          generateRoutesFile (sorted.filter (·.isStatic))
            (sorted.filter fun r => !r.isStatic)) ∧
      generate records (some cmp) = generate records (some cmp) :=
  ⟨records.mergeSort fun a b => cmp a b ≤ 0,
    List.mergeSort_perm records _, rfl, rfl⟩

/-- C10.  `buildPath` with the params argument wholly omitted returns the
route unchanged, placeholders included — no missing-parameter check
runs. -/
theorem buildPath_none_id (route : Str) :
    buildPath route none = Except.ok route := rfl

end RouteCodegen
